import Mathlib

/-!
Verification development for the AAAG-AU/QGIS repository.

The repository contains two QGIS GUI plugins (`sort_layers/sort_layers.py`
with class `SortLayersPlugin`, and `plugins/sort_and_group_layers/
sort_and_group_layers.py` with class `SortAndGroupLayersPlugin`) and a
deployment script `deploy_plugins.py`.

Shallow embedding conventions used throughout this file:

* Python strings are modelled as `Str := List Char`; the Python string
  methods used by the code (`strip`, `upper`, `lower`, `split`,
  `isdigit`, `int(...)`, `replace("&", "")`) are given structurally
  recursive models so that every definition evaluates by kernel
  reduction.
* A `QgsMapLayer` is identified by a numeric layer id (`Nat`); the
  project's map-layer registry (`QgsProject.mapLayers`) is modelled as
  the insertion-ordered list of registered layer ids.
* The layer tree is the nested inductive `LNode`; the root is modelled
  by its list of children, exactly the view the plugin code manipulates
  through `root.children()`.
* Properties of the host environment that the code merely reads (file
  paths of layers, geometry types, feature counts, modification times)
  enter as explicit parameters of the operations, so every theorem
  quantifies over all host behaviours.
* Filesystem paths are modelled in normalised form as `FPath`: an
  absolute-flag plus the list of path components; `os.path.normpath`
  is then the identity, and `os.path.basename`, `os.path.dirname`,
  `os.path.join` are modelled on that representation.
-/

/-! ## Python string model -/

/-- Python strings, modelled as lists of characters. -/
abbrev Str := List Char

/-- Model of Python `str.strip()`: remove leading and trailing whitespace. -/
def pyStrip (s : Str) : Str :=
  ((s.dropWhile Char.isWhitespace).reverse.dropWhile Char.isWhitespace).reverse

/-- Model of Python `str.upper()` for the ASCII inputs used by the script. -/
def pyUpper (s : Str) : Str := s.map Char.toUpper

/-- Model of Python `str.lower()` for the ASCII inputs used by the code. -/
def pyLower (s : Str) : Str := s.map Char.toLower

/-- Model of Python `str.split(sep)` for a single-character separator,
matching Python semantics: `"".split(",") = [""]`, `",".split(",") = ["",""]`. -/
def pySplit (sep : Char) : Str → List Str
  | [] => [[]]
  | c :: t =>
    let r := pySplit sep t
    if c = sep then [] :: r
    else
      match r with
      | [] => [[c]]
      | h :: r' => (c :: h) :: r'

/-- Model of Python `str.isdigit()` (restricted to ASCII digits, the only
characters relevant to index selection). -/
def pyIsDigit (s : Str) : Bool := !s.isEmpty && s.all Char.isDigit

/-- Model of Python `int(...)` on a string of decimal digits. -/
def pyToNat (s : Str) : Nat := s.foldl (fun n c => 10 * n + (c.toNat - 48)) 0

/-- Model of Python `str.replace("&", "")`: drop every ampersand. -/
def stripAmp (s : Str) : Str := s.filter (fun c => c ≠ '&')

/-! ## deploy_plugins.py: prompt_choice and the main action menu -/

/-- Model of the numeric part of one loop iteration of `prompt_choice`
(`deploy_plugins.py`): split the raw answer on commas, strip each part,
require every part to be a digit string whose value minus one is a valid
0-based index into `options`; returns the accumulated indices, or `none`
when the `valid` flag is cleared.  Arithmetic is done in `Int` because
Python's `int(part) - 1` may be negative (for the answer "0"). -/
def parseStep (numOptions : Nat) (acc : Option (List Nat)) (part : Str) : Option (List Nat) :=
  match acc with
  | none => none
  | some idxs =>
    if pyIsDigit part then
      let num : Int := (pyToNat part : Int) - 1
      if num < 0 ∨ (numOptions : Int) ≤ num then none
      else some (idxs ++ [num.toNat])
    else none

/-- Model of the comma-separated selection parsing of `prompt_choice`:
over the stripped parts of the answer, `parseStep` is folded from an
empty accumulator, failing as soon as one part is invalid. -/
def parseSelection (raw : Str) (numOptions : Nat) : Option (List Nat) :=
  ((pySplit ',' raw).map pyStrip).foldl (parseStep numOptions) (some [])

/-- Model of `prompt_choice` (`deploy_plugins.py`, lines 149-200).  The
interactive loop is modelled over the list of successive user answers;
an exhausted input list models `EOFError`/`KeyboardInterrupt` (which make
the function return `None`).  Returns the selected 0-based indices, or
`none` when the user quits. -/
def prompt_choice (options : List Str) (allow_all : Bool) : List Str → Option (List Nat)
  | [] => none
  | raw0 :: rest =>
    let raw := pyStrip raw0
    if raw.isEmpty then prompt_choice options allow_all rest
    else
      let upper := pyUpper raw
      if upper = ['Q'] then none
      else if allow_all && upper = ['A'] then some (List.range options.length)
      else
        match parseSelection raw options.length with
        | some indices =>
          if indices.isEmpty then prompt_choice options allow_all rest
          else some indices
        | none => prompt_choice options allow_all rest

/-- The three entries of the top-level action menu of `deploy_plugins.py`
(`main`, lines 875-879). -/
def mainMenuOptions : List Str :=
  ["Deploy to local QGIS profile".data,
   "Upload to QGIS plugin repository (plugins.qgis.org)".data,
   "Prepare ZIP for first-time upload (new plugin)".data]

/-- The three top-level actions of `deploy_plugins.py`. -/
inductive MainAction where
  | deployLocal
  | uploadRepo
  | prepareZip
deriving DecidableEq

/-- Dispatch of `main` (`deploy_plugins.py`, lines 884-889) on the first
selected index of the action menu. -/
def dispatchMain (i : Nat) : MainAction :=
  if i = 0 then MainAction.deployLocal
  else if i = 1 then MainAction.uploadRepo
  else MainAction.prepareZip

/-! ## Supporting lemmas for prompt_choice -/

theorem parseStep_none (n : Nat) (part : Str) : parseStep n none part = none := rfl

theorem foldl_parseStep_none (n : Nat) (parts : List Str) :
    parts.foldl (parseStep n) none = none := by
  induction parts with
  | nil => rfl
  | cons p t ih => simpa [parseStep] using ih

theorem foldl_parseStep_valid (n : Nat) (parts : List Str) :
    ∀ (acc : List Nat), (∀ i ∈ acc, i < n) →
      ∀ idxs, parts.foldl (parseStep n) (some acc) = some idxs →
        ∀ i ∈ idxs, i < n := by
  induction parts with
  | nil =>
    intro acc hacc idxs h
    simp only [List.foldl_nil, Option.some.injEq] at h
    exact h ▸ hacc
  | cons p t ih =>
    intro acc hacc idxs h
    simp only [List.foldl_cons] at h
    by_cases hd : pyIsDigit p
    · simp only [parseStep, hd, if_true] at h
      by_cases hr : ((pyToNat p : Int) - 1 < 0 ∨ (n : Int) ≤ (pyToNat p : Int) - 1)
      · rw [if_pos hr] at h
        rw [foldl_parseStep_none] at h
        exact absurd h (by simp)
      · rw [if_neg hr] at h
        push_neg at hr
        refine ih (acc ++ [((pyToNat p : Int) - 1).toNat]) ?_ idxs h
        intro i hi
        rcases List.mem_append.mp hi with hi | hi
        · exact hacc i hi
        · have : i = ((pyToNat p : Int) - 1).toNat := by simpa using hi
          subst this
          have h2 := hr.2
          omega
    · simp only [parseStep, hd, Bool.false_eq_true, if_false] at h
      rw [foldl_parseStep_none] at h
      exact absurd h (by simp)

theorem parseSelection_valid (raw : Str) (n : Nat) (idxs : List Nat)
    (h : parseSelection raw n = some idxs) : ∀ i ∈ idxs, i < n :=
  foldl_parseStep_valid n ((pySplit ',' raw).map pyStrip) [] (by simp) idxs h

theorem prompt_choice_valid (options : List Str) (allow_all : Bool) :
    ∀ (inputs : List Str) (l : List Nat),
      prompt_choice options allow_all inputs = some l →
        (∀ i ∈ l, i < options.length) ∧ (options ≠ [] → l ≠ []) := by
  intro inputs
  induction inputs with
  | nil => intro l h; exact absurd h (by simp [prompt_choice])
  | cons raw0 rest ih =>
    intro l h
    rw [prompt_choice] at h
    by_cases he : (pyStrip raw0).isEmpty
    · rw [if_pos he] at h; exact ih l h
    · rw [if_neg he] at h
      by_cases hq : pyUpper (pyStrip raw0) = ['Q']
      · rw [if_pos hq] at h; exact absurd h (by simp)
      · rw [if_neg hq] at h
        by_cases ha : (allow_all && pyUpper (pyStrip raw0) = ['A'] : Bool)
        · rw [if_pos ha] at h
          have hl : l = List.range options.length := by
            simpa using h.symm
          subst hl
          constructor
          · intro i hi; exact List.mem_range.mp hi
          · intro hopts
            simp only [ne_eq, List.range_eq_nil]
            intro hlen
            exact hopts (List.eq_nil_of_length_eq_zero hlen)
        · rw [if_neg ha] at h
          cases hp : parseSelection (pyStrip raw0) options.length with
          | none =>
            rw [hp] at h
            replace h : prompt_choice options allow_all rest = some l := h
            exact ih l h
          | some indices =>
            rw [hp] at h
            replace h : (if indices.isEmpty then prompt_choice options allow_all rest
                else some indices) = some l := h
            by_cases hie : indices.isEmpty
            · rw [if_pos hie] at h; exact ih l h
            · rw [if_neg hie] at h
              have hl : indices = l := by simpa using h
              subst hl
              refine ⟨parseSelection_valid _ _ _ hp, fun _ => ?_⟩
              simpa using hie

theorem prompt_choice_all (options : List Str) (raw : Str) (rest : List Str)
    (h : pyUpper (pyStrip raw) = ['A']) :
    prompt_choice options true (raw :: rest) = some (List.range options.length) := by
  rw [prompt_choice]
  have hne : (pyStrip raw).isEmpty = false := by
    cases hs : pyStrip raw with
    | nil => rw [hs] at h; exact absurd h (by simp [pyUpper])
    | cons c t => simp
  rw [if_neg (by simp [hne])]
  have hq : ¬ pyUpper (pyStrip raw) = ['Q'] := by rw [h]; decide
  rw [if_neg hq, if_pos (by simp [h])]

/-! ## Claim theorems for deploy_plugins.py -/

/-- C10 counterexample: the claim asserts that any non-`None` return of
`prompt_choice` is a non-empty list; but with an empty options list,
`allow_all` enabled, and the answer "A", `prompt_choice` returns the
empty list (Python `list(range(0)) = []`), which is not `None`. -/
theorem prompt_choice_nonempty_refuted :
    ¬ (∀ (options : List Str) (allow_all : Bool) (inputs : List Str) (l : List Nat),
        prompt_choice options allow_all inputs = some l → l ≠ []) :=
  fun h => h [] true [['A']] [] rfl rfl

/-- C10 (amended): whenever `prompt_choice` returns a value other than
`none`, every returned index is a valid 0-based index into the options
list, and, provided the options list is non-empty, the returned list is
non-empty; with `allow_all` enabled, an answer that strips and upper-cases
to "A" yields exactly the list of all indices `0..len(options)-1`. -/
theorem prompt_choice_selection_safety :
    (∀ (options : List Str) (allow_all : Bool) (inputs : List Str) (l : List Nat),
      prompt_choice options allow_all inputs = some l →
        (∀ i ∈ l, i < options.length) ∧ (options ≠ [] → l ≠ [])) ∧
    (∀ (options : List Str) (raw : Str) (rest : List Str),
      pyUpper (pyStrip raw) = ['A'] →
        prompt_choice options true (raw :: rest) = some (List.range options.length)) :=
  ⟨fun options allow_all inputs l h => prompt_choice_valid options allow_all inputs l h,
   fun options raw rest h => prompt_choice_all options raw rest h⟩

/-- Witness for the amended C10 theorem at concrete inputs: with one
option and the answer "1", the selection is the singleton valid index 0,
and the answer "a" yields all indices. -/
theorem prompt_choice_selection_safety_witness :
    ((∀ i ∈ [0], i < ([['p']] : List Str).length) ∧ (([['p']] : List Str) ≠ [] → [0] ≠ [])) ∧
    prompt_choice [['p']] true [['a']] = some (List.range 1) :=
  ⟨prompt_choice_selection_safety.1 [['p']] false [['1']] [0] rfl,
   prompt_choice_selection_safety.2 [['p']] ['a'] [] rfl⟩

/-- C8 counterexample: the top-level action menu of `deploy_plugins.py`
does not offer exactly two entries; it offers three, the third being the
prepare-ZIP-for-first-time-upload helper. -/
theorem main_menu_not_two :
    mainMenuOptions.length ≠ 2 ∧
    mainMenuOptions.get? 2 = some "Prepare ZIP for first-time upload (new plugin)".data := by
  constructor
  · decide
  · rfl

/-- C8 (amended): the deployment script's top-level action menu offers
exactly three options — the two deployment modes (copy into a local QGIS
profile, upload to the official plugin repository) as the first two
entries, plus a helper that prepares a ZIP for a first-time manual
upload — and `main` dispatches index 0 to the local deployment flow,
index 1 to the upload flow, and the remaining index to the prepare flow. -/
theorem main_menu_actions :
    mainMenuOptions =
      ["Deploy to local QGIS profile".data,
       "Upload to QGIS plugin repository (plugins.qgis.org)".data,
       "Prepare ZIP for first-time upload (new plugin)".data] ∧
    mainMenuOptions.length = 3 ∧
    dispatchMain 0 = MainAction.deployLocal ∧
    dispatchMain 1 = MainAction.uploadRepo ∧
    dispatchMain 2 = MainAction.prepareZip :=
  ⟨rfl, rfl, rfl, rfl, rfl⟩

/-! ## Filesystem path model -/

/-- A filesystem path in normalised (`os.path.normpath`) form: an
absolute flag plus the list of path components.  `os.path.normpath` is
the identity on this representation. -/
structure FPath where
  absFlag : Bool
  comps : List Str
deriving DecidableEq

/-- Render an `FPath` as the posix path string it stands for. -/
def FPath.render (p : FPath) : Str :=
  if p.absFlag then '/' :: List.intercalate ['/'] p.comps
  else List.intercalate ['/'] p.comps

/-- Model of `os.path.basename` on a normalised path: its last component,
or the empty string when there is none. -/
def fBasename (p : FPath) : Str := (p.comps.getLast?).getD []

/-- Model of `os.path.dirname` on a normalised path: drop the last
component. -/
def fDirname (p : FPath) : FPath := ⟨p.absFlag, p.comps.dropLast⟩

/-- Model of two-argument `os.path.join` on path strings. -/
def osJoin (a b : Str) : Str :=
  if a = [] then b
  else if b.head? = some '/' then b
  else if a.getLast? = some '/' then a ++ b
  else a ++ '/' :: b

/-! ## Layer tree model -/

/-- A node of the QGIS layer tree: either a `QgsLayerTreeLayer` (holding
an optional reference to a registered map layer, plus the
visibility-checked and expanded flags) or a `QgsLayerTreeGroup` (name,
visibility-checked, expanded and mutually-exclusive flags, and child
nodes). -/
inductive LNode where
  | layer (ref : Option Nat) (visible : Bool) (expanded : Bool)
  | group (name : Str) (visible : Bool) (expanded : Bool) (mutex : Bool)
      (children : List LNode)

/-- Whether a node is a group (`isinstance(node, QgsLayerTreeGroup)`). -/
def LNode.isGroup : LNode → Bool
  | .layer _ _ _ => false
  | .group _ _ _ _ _ => true

mutual

/-- Model of `SortAndGroupLayersPlugin._copy_node` together with
`_make_layer_node`: a layer node with a live layer reference is rebuilt
through the `QgsLayerTreeLayer(QgsMapLayer)` constructor and keeps its
visibility-checked and expanded flags; a layer node whose `layer()` is
`None` is `clone()`d; a group node is rebuilt with the same name and
flags (mutual exclusivity copied when set) and recursively copied
children. -/
def copy_node : LNode → LNode
  | .layer none vis exp => .layer none vis exp
  | .layer (some l) vis exp => .layer (some l) vis exp
  | .group n vis exp mx cs => .group n vis exp mx (copy_node_list cs)

/-- Children loop of `_copy_node` on a group's `children()`. -/
def copy_node_list : List LNode → List LNode
  | [] => []
  | c :: t => copy_node c :: copy_node_list t

end

mutual

/-- Model of `SortAndGroupLayersPlugin._flatten_layer_nodes` applied to a
list of children: layer nodes are collected in order, group nodes are
recursed into. -/
def flattenList : List LNode → List LNode
  | [] => []
  | c :: t => flattenNode c ++ flattenList t

/-- Contribution of a single child to `_flatten_layer_nodes`. -/
def flattenNode : LNode → List LNode
  | .layer r v e => [.layer r v e]
  | .group _ _ _ _ cs => flattenList cs

end

mutual

/-- The registered layer ids referenced below a node (used to model
which layers the layer-tree-registry bridge would deregister when the
node is removed with the bridge enabled). -/
def layersOfNode : LNode → List Nat
  | .layer r _ _ => r.toList
  | .group _ _ _ _ cs => layersOfList cs

/-- Layer ids referenced below a list of nodes. -/
def layersOfList : List LNode → List Nat
  | [] => []
  | c :: t => layersOfNode c ++ layersOfList t

end

/-- Model of `QgsLayerTreeNode.clone()` for the `sort_layers` plugin:
a full deep copy, i.e. the identity on the modelled attributes. -/
def clone (n : LNode) : LNode := n

/-! ## Project and plugin state -/

/-- The part of the host `QgsProject` the plugins interact with: the
map-layer registry (insertion-ordered list of registered layer ids),
the children of the layer tree root, and the enabled state of the
layer-tree-registry bridge. -/
structure Project where
  registry : List Nat
  tree : List LNode
  bridgeEnabled : Bool

/-- Mutable state of `SortAndGroupLayersPlugin` (fields set in
`__init__`, lines 92-105; menus and actions are identified by their
label strings). -/
structure SAGPlugin where
  sort_menu : Option Str
  group_menu : Option Str
  sort_menu_action : Option Str
  group_menu_action : Option Str
  actions : List Str
  original_order_nodes : Option (List LNode)
  saved_layers : Option (List Nat)
  clearedConnected : Bool

/-- The freshly constructed plugin state (`__init__`). -/
def SAGPlugin.init : SAGPlugin :=
  ⟨none, none, none, none, [], none, none, false⟩

/-- Combined state of project and `SortAndGroupLayersPlugin`. -/
structure SAGState where
  proj : Project
  plug : SAGPlugin

/-- Mutable state of `SortLayersPlugin` (`sort_layers.py`, `__init__`,
lines 48-58). -/
structure SLPlugin where
  sort_menu : Option Str
  menu_action : Option Str
  actions : List Str
  original_order_clones : Option (List LNode)
  clearedConnected : Bool

/-- Combined state of project and `SortLayersPlugin`. -/
structure SLState where
  proj : Project
  plug : SLPlugin

/-! ## Python stable sort model -/

/-- Insert into a sorted list, keeping earlier elements first among
equals (the insertion step of a stable sort). -/
def stableInsert (le : α → α → Bool) (a : α) : List α → List α
  | [] => [a]
  | b :: t => if le a b then a :: b :: t else b :: stableInsert le a t

/-- Model of Python `sorted(xs, ...)`/`list.sort(...)`: the stable sort
of `xs` for the total preorder `le` induced by the sort key.  For
key-induced comparators this agrees elementwise with Python's stable
sort. -/
def pySorted (le : α → α → Bool) (l : List α) : List α :=
  l.foldr (stableInsert le) []

/-- Comparator induced by Python's `key=`/`reverse=` sorting arguments:
`pyCmp le rev a b` holds when `a` may come before `b` in the sorted
output; `reverse=True` sorts descending (still stable). -/
def pyCmp (le : α → α → Bool) (rev : Bool) : α → α → Bool :=
  fun a b => if rev then le b a else le a b

/-! ## Dict-with-setdefault model -/

/-- Lookup in an insertion-ordered association list (Python `dict`
access). -/
def lookupA [DecidableEq κ] : List (κ × β) → κ → Option β
  | [], _ => none
  | (k, v) :: t, key => if key = k then some v else lookupA t key

/-- Model of Python `d.setdefault(k, []).append(b)` on an
insertion-ordered association list of buckets. -/
def setdefaultAppend [DecidableEq κ] (m : List (κ × List β)) (k : κ) (b : β) :
    List (κ × List β) :=
  match m with
  | [] => [(k, [b])]
  | (k', xs) :: t =>
    if k' = k then (k', xs ++ [b]) :: t else (k', xs) :: setdefaultAppend t k b

/-- Model of the categorisation loops of the plugin code: each element
`a` with `keyOf a = some k` is appended (as `val a`) to the bucket of
`k` in an insertion-ordered dict, and each element with `keyOf a = none`
is appended to a separate rest list. -/
def partitionByKey [DecidableEq κ] (keyOf : α → Option κ) (val : α → β)
    (l : List α) : List (κ × List β) × List α :=
  l.foldl
    (fun acc a =>
      match keyOf a with
      | some k => (setdefaultAppend acc.1 k (val a), acc.2)
      | none => (acc.1, acc.2 ++ [a]))
    ([], [])

/-! ## Registry bridge semantics and tree rewriting -/

/-- Remove the first child of the root
(`root.removeChildNode(root.children()[0])`).  With the
layer-tree-registry bridge enabled the host deregisters the removed
node's layers from the project registry; with the bridge disabled the
registry is untouched. -/
def removeFirstChild (p : Project) : Project :=
  match p.tree with
  | [] => p
  | c :: t =>
    { registry :=
        if p.bridgeEnabled then
          p.registry.filter (fun l => l ∉ layersOfNode c)
        else p.registry,
      tree := t,
      bridgeEnabled := p.bridgeEnabled }

/-- Iterate `removeFirstChild` (`for _ in range(original_count)`). -/
def removeN : Nat → Project → Project
  | 0, p => p
  | n + 1, p => removeN n (removeFirstChild p)

/-- Model of `root.removeAllChildren()` under the same bridge
semantics. -/
def removeAllChildren (p : Project) : Project :=
  { registry :=
      if p.bridgeEnabled then
        p.registry.filter (fun l => l ∉ layersOfList p.tree)
      else p.registry,
    tree := [],
    bridgeEnabled := p.bridgeEnabled }

/-- Model of the re-registration loop (`if project.mapLayer(lid) is
None: project.addMapLayer(layer, False)`): append each saved layer id
missing from the registry. -/
def readdLost (reg : List Nat) (saved : List Nat) : List Nat :=
  saved.foldl (fun r l => if l ∈ r then r else r ++ [l]) reg

/-- Model of `SortAndGroupLayersPlugin._rebuild_tree` (lines 331-375):
snapshot the registry, append the new children (phase 1), disable the
bridge, remove the original children from the front, re-register lost
layers, re-enable the bridge (phase 2), then resolve references (a
no-op here because modelled layer nodes hold direct references). -/
def sag_rebuild_tree (s : SAGState) (new_children : List LNode) : SAGState :=
  let saved_layers := s.proj.registry
  let original_count := s.proj.tree.length
  let p1 : Project := { s.proj with tree := s.proj.tree ++ new_children }
  let p2 : Project := { p1 with bridgeEnabled := false }
  let p3 : Project := removeN original_count p2
  let p4 : Project := { p3 with registry := readdLost p3.registry saved_layers }
  let p5 : Project := { p4 with bridgeEnabled := true }
  { s with proj := p5 }

/-! ## SortAndGroupLayersPlugin: saved order and sorting engine -/

/-- Model of `SortAndGroupLayersPlugin._save_original_order` (lines
250-262): a no-op when a snapshot already exists; otherwise store copies
of the root's children and the current registry content. -/
def sag_save_original_order (s : SAGState) : SAGState :=
  match s.plug.original_order_nodes with
  | some _ => s
  | none =>
    { s with plug :=
      { s.plug with
        original_order_nodes := some (copy_node_list s.proj.tree),
        saved_layers := some s.proj.registry } }

/-- Model of `SortAndGroupLayersPlugin._clear_saved_order` (lines
264-267). -/
def sag_clear_saved_order (p : SAGPlugin) : SAGPlugin :=
  { p with original_order_nodes := none, saved_layers := none }

/-- Model of `SortAndGroupLayersPlugin._sort_with_groups` (lines
415-453).  Python pairs each top-level node with its sort key and sorts
the pairs by key; here the key of a node is represented by the node the
key is computed from (the group's first sorted child, or the node
itself), and the comparator `le` stands for the key comparison. -/
def sag_sort_with_groups (le : LNode → LNode → Bool) (rev : Bool)
    (children : List LNode) : List LNode :=
  let keyed : List (LNode × LNode) := children.map (fun child =>
    match child with
    | .group n vis exp mx cs =>
      let sorted_kids := pySorted (pyCmp le rev) cs
      let new_group := LNode.group n vis exp mx (copy_node_list sorted_kids)
      let rep := match sorted_kids with
        | k :: _ => k
        | [] => child
      (rep, new_group)
    | c => (c, copy_node c))
  (pySorted (fun a b => pyCmp le rev a.1 b.1) keyed).map (fun kv => kv.2)

/-- Model of `SortAndGroupLayersPlugin._reorder_layers` (lines 381-413):
return unchanged on an empty tree, save the original order, then sort
within groups (when groups are present) or sort plain copies, and
rebuild the tree. -/
def sag_reorder_layers (le : LNode → LNode → Bool) (rev : Bool)
    (s : SAGState) : SAGState :=
  if s.proj.tree.isEmpty then s
  else
    let s1 := sag_save_original_order s
    let children := s1.proj.tree
    let has_groups := children.any LNode.isGroup
    let new_nodes :=
      if has_groups then sag_sort_with_groups le rev children
      else copy_node_list (pySorted (pyCmp le rev) children)
    sag_rebuild_tree s1 new_nodes

/-! ## String and key comparators used by Python tuple/str sorting -/

/-- Code-point lexicographic strict order on strings (Python `<`). -/
def strLtB : Str → Str → Bool
  | [], [] => false
  | [], _ :: _ => true
  | _ :: _, [] => false
  | a :: s, b :: t => if a = b then strLtB s t else decide (a < b)

/-- Non-strict lexicographic order on strings (Python `<=`). -/
def strLeB (s t : Str) : Bool := strLtB s t || decide (s = t)

/-- Python's lexicographic comparison on `(int, str)` tuples, as used by
`sorted(categories)` in `group_by_geometry`. -/
def catKeyLe (a b : Nat × Str) : Bool :=
  decide (a.1 < b.1) || (decide (a.1 = b.1) && strLeB a.2 b.2)

/-- Comparison of `(filename, node)` pairs by first component, as used
by `sorted(folders[folder_path], key=lambda x: x[0])`. -/
def pairFstLe (a b : Str × LNode) : Bool := strLeB a.1 b.1

/-! ## Geometry environment -/

/-- QGIS geometry types relevant to the plugin's tables. -/
inductive GeomType where
  | point
  | line
  | polygon
  | nullGeom
  | unknown
deriving DecidableEq

/-- The `_GEOMETRY_SORT_ORDER` table. -/
def geometrySortOrder : GeomType → Nat
  | .point => 0
  | .line => 1
  | .polygon => 2
  | .nullGeom => 3
  | .unknown => 4

/-- The `_GEOMETRY_GROUP_NAMES` table. -/
def geometryGroupName : GeomType → Str
  | .point => "Point Layers".data
  | .line => "Line Layers".data
  | .polygon => "Polygon Layers".data
  | .nullGeom => "No Geometry".data
  | .unknown => "Unknown Geometry".data

/-- The host-determined kind of a registered map layer: a vector layer
with its geometry type, a raster layer, or another layer type. -/
inductive LayerKind where
  | vector (g : GeomType)
  | raster
  | other

/-- Category key `(sort_order, display_name)` computed by
`group_by_geometry` (lines 657-669) for one flattened layer node; the
group branch is unreachable because `_flatten_layer_nodes` returns only
layer nodes. -/
def geomCategoryKey (kind : Nat → LayerKind) : LNode → Nat × Str
  | .layer none _ _ => (99, "Other Layers".data)
  | .layer (some l) _ _ =>
    match kind l with
    | .vector g => (geometrySortOrder g, geometryGroupName g)
    | .raster => (90, "Raster Layers".data)
    | .other => (99, "Other Layers".data)
  | .group _ _ _ _ _ => (99, "Other Layers".data)

/-- Model of `SortAndGroupLayersPlugin.group_by_geometry` (lines
640-681): flatten the tree, save the original order, categorise every
layer node, and rebuild the tree with one group per category, ordered by
the `(sort_order, name)` key.  New groups carry the `QgsLayerTreeGroup`
constructor defaults (visible, expanded, not mutually exclusive). -/
def sag_group_by_geometry (kind : Nat → LayerKind) (s : SAGState) : SAGState :=
  let all_layers := flattenList s.proj.tree
  if all_layers.isEmpty then s
  else
    let s1 := sag_save_original_order s
    let categories := (partitionByKey (fun n => some (geomCategoryKey kind n)) id all_layers).1
    let sortedKeys := pySorted catKeyLe (categories.map Prod.fst)
    let new_children := sortedKeys.map (fun k =>
      LNode.group k.2 true true false (copy_node_list ((lookupA categories k).getD [])))
    sag_rebuild_tree s1 new_children

/-! ## Folder grouping and unique folder names -/

/-- The source folder key used by `group_by_folder` (lines 703-718): the
dirname of the layer's file path when the layer has a file path with a
non-empty directory component, `none` (the "Other Sources" bucket)
otherwise. -/
def folderKeyOf (pathOf : Nat → FPath) : LNode → Option FPath
  | .layer none _ _ => none
  | .layer (some l) _ _ =>
    let fp := pathOf l
    if fp.render ≠ [] ∧ (fDirname fp).render ≠ [] then some (fDirname fp) else none
  | .group _ _ _ _ _ => none

/-- The `(filename.lower(), node)` pair appended to a folder bucket. -/
def folderValOf (pathOf : Nat → FPath) (n : LNode) : Str × LNode :=
  match n with
  | .layer (some l) _ _ => (pyLower (fBasename (pathOf l)), n)
  | _ => ([], n)

/-- The string `base = os.path.basename(norm[fp]) or norm[fp]` of
`_unique_folder_names`. -/
def baseKeyOf (fp : FPath) : Str :=
  let b := fBasename fp
  if b = [] then fp.render else b

/-- The string `combo = os.path.join(parent, base) if parent else
norm[fp]` of `_unique_folder_names`, where `parent` is the basename of
the path's dirname. -/
def comboOf (base : Str) (fp : FPath) : Str :=
  let parent := fBasename (fDirname fp)
  if parent = [] then fp.render else osJoin parent base

/-- Name assignment of `_unique_folder_names` within one basename group
(lines 764-783): a singleton group gets the bare basename; otherwise
paths are regrouped by `combo`, unique combos are used directly, and
still-ambiguous paths fall back to their full normalised path. -/
def assignNamesForGroup (base : Str) (paths : List FPath) : List (FPath × Str) :=
  match paths with
  | [p] => [(p, base)]
  | _ =>
    let seen := (partitionByKey (fun fp => some (comboOf base fp)) id paths).1
    seen.flatMap (fun cg =>
      match cg.2 with
      | [p] => [(p, cg.1)]
      | sub => sub.map (fun fp => (fp, fp.render)))

/-- Model of `SortAndGroupLayersPlugin._unique_folder_names` (lines
744-785), with paths already in normalised form (so the `norm` map is
the identity). -/
def unique_folder_names (folder_paths : List FPath) : List (FPath × Str) :=
  if folder_paths.isEmpty then []
  else
    ((partitionByKey (fun fp => some (baseKeyOf fp)) id folder_paths).1).flatMap
      (fun bg => assignNamesForGroup bg.1 bg.2)

/-- Model of `SortAndGroupLayersPlugin.group_by_folder` (lines 683-742):
flatten the tree, save the original order, bucket layer nodes by source
folder (unresolvable sources go to "Other Sources"), compute unique
display names, and rebuild with one group per folder sorted by display
name, each group's layers sorted by filename. -/
def sag_group_by_folder (pathOf : Nat → FPath) (s : SAGState) : SAGState :=
  let all_layers := flattenList s.proj.tree
  if all_layers.isEmpty then s
  else
    let s1 := sag_save_original_order s
    let part := partitionByKey (folderKeyOf pathOf) (folderValOf pathOf) all_layers
    let folders := part.1
    let other := part.2
    let display_names := unique_folder_names (folders.map Prod.fst)
    let nameOf := fun fp => (lookupA display_names fp).getD []
    let sortedFolders := pySorted
      (fun f1 f2 => strLeB (pyLower (nameOf f1)) (pyLower (nameOf f2)))
      (folders.map Prod.fst)
    let folderGroups := sortedFolders.map (fun fp =>
      LNode.group (nameOf fp) true true false
        ((pySorted pairFstLe ((lookupA folders fp).getD [])).map
          (fun pr => copy_node pr.2)))
    let new_children :=
      if other.isEmpty then folderGroups
      else folderGroups ++
        [LNode.group "Other Sources".data true true false (copy_node_list other)]
    sag_rebuild_tree s1 new_children

/-! ## SortAndGroupLayersPlugin: restore and GUI lifecycle -/

/-- Model of `SortAndGroupLayersPlugin.restore_original_order` (lines
791-817): with no snapshot only a message box is shown; otherwise
re-register the saved layers that went missing, rebuild the tree from
copies of the snapshot, and clear the snapshot. -/
def sag_restore_original_order (s : SAGState) : SAGState :=
  match s.plug.original_order_nodes with
  | none => s
  | some saved =>
    let reg :=
      match s.plug.saved_layers with
      | some ids => readdLost s.proj.registry ids
      | none => s.proj.registry
    let s1 : SAGState := { s with proj := { s.proj with registry := reg } }
    let copies := copy_node_list saved
    let s2 := sag_rebuild_tree s1 copies
    { s2 with plug :=
      { s2.plug with original_order_nodes := none, saved_layers := none } }

/-- The host's menu bar: the titles of the top-level menus together with
the labels of each menu's entries. -/
abbrev MenuBar := List (Str × List Str)

/-- Model of `_find_layer_menu` (both plugins): index of the first
menu-bar action whose title with ampersands stripped equals "Layer". -/
def find_layer_menu_idx (bar : MenuBar) : Option Nat :=
  bar.findIdx? (fun e => decide (stripAmp e.1 = "Layer".data))

/-- Labels of the actions added to the Sort Layers submenu by
`SortAndGroupLayersPlugin.initGui`. -/
def sagSortActionLabels : List Str :=
  ["Sort by File Path".data,
   "Sort Alphabetically".data,
   "Sort by File Date (Newest First)".data,
   "Sort by Geometry Type".data,
   "Sort by Feature Count (Most First)".data,
   "Sort by File Size (Largest First)".data,
   "Restore Original Order".data]

/-- Labels of the actions added to the Group Layers submenu. -/
def sagGroupActionLabels : List Str :=
  ["Group by Geometry Type".data,
   "Group by Folder Path".data,
   "Restore Original Order".data]

/-- Model of `SortAndGroupLayersPlugin.initGui` (lines 111-192): when no
Layer menu is found, return immediately leaving menu bar and plugin
state untouched; otherwise add the Sort Layers and Group Layers submenus
to the Layer menu, record the created menus and actions, and connect the
project's `cleared` signal to `_clear_saved_order`. -/
def sag_initGui (bar : MenuBar) (p : SAGPlugin) : MenuBar × SAGPlugin :=
  match find_layer_menu_idx bar with
  | none => (bar, p)
  | some i =>
    let entry := bar.getD i ([], [])
    let bar' := bar.set i
      (entry.1, entry.2 ++ ["Sort Layers".data, "Group Layers".data])
    (bar',
     { p with
       sort_menu := some "Sort Layers".data,
       group_menu := some "Group Layers".data,
       sort_menu_action := some "Sort Layers".data,
       group_menu_action := some "Group Layers".data,
       actions := p.actions ++ sagSortActionLabels ++ sagGroupActionLabels,
       clearedConnected := true })

/-- Model of `SortAndGroupLayersPlugin.unload` (lines 204-227): remove
the two submenu entries from the Layer menu when it can be found, reset
every plugin field (including the saved snapshot and layer dict), and
disconnect the `cleared` signal. -/
def sag_unload (bar : MenuBar) (p : SAGPlugin) : MenuBar × SAGPlugin :=
  let bar' :=
    match find_layer_menu_idx bar with
    | none => bar
    | some i =>
      let entry := bar.getD i ([], [])
      bar.set i
        (entry.1,
         entry.2.filter (fun lbl =>
           decide (¬ (p.sort_menu_action = some lbl ∨ p.group_menu_action = some lbl))))
  (bar',
   { sort_menu := none, group_menu := none, sort_menu_action := none,
     group_menu_action := none, actions := [], original_order_nodes := none,
     saved_layers := none, clearedConnected := false })

/-! ## SortLayersPlugin operations -/

/-- Model of `SortLayersPlugin._save_original_order` (lines 158-165). -/
def sl_save_original_order (s : SLState) : SLState :=
  match s.plug.original_order_clones with
  | some _ => s
  | none =>
    { s with plug :=
      { s.plug with original_order_clones := some (s.proj.tree.map clone) } }

/-- Model of `SortLayersPlugin._clear_saved_order` (lines 167-169). -/
def sl_clear_saved_order (p : SLPlugin) : SLPlugin :=
  { p with original_order_clones := none }

/-- Model of `SortLayersPlugin._reorder_layers` (lines 175-207): return
unchanged on an empty tree, save the original order, sort clones of the
top-level children, then with the bridge disabled remove all children
and re-add the sorted clones. -/
def sl_reorder_layers (le : LNode → LNode → Bool) (rev : Bool)
    (s : SLState) : SLState :=
  if s.proj.tree.isEmpty then s
  else
    let s1 := sl_save_original_order s
    let sorted_clones := (pySorted (pyCmp le rev) s1.proj.tree).map clone
    let p1 : Project := { s1.proj with bridgeEnabled := false }
    let p2 : Project := removeAllChildren p1
    let p3 : Project := { p2 with tree := p2.tree ++ sorted_clones }
    let p4 : Project := { p3 with bridgeEnabled := true }
    { s1 with proj := p4 }

/-- Model of `SortLayersPlugin.restore_original_order` (lines 338-365). -/
def sl_restore_original_order (s : SLState) : SLState :=
  match s.plug.original_order_clones with
  | none => s
  | some saved =>
    let clones := saved.map clone
    let p1 : Project := { s.proj with bridgeEnabled := false }
    let p2 : Project := removeAllChildren p1
    let p3 : Project := { p2 with tree := p2.tree ++ clones }
    let p4 : Project := { p3 with bridgeEnabled := true }
    { proj := p4, plug := { s.plug with original_order_clones := none } }

/-- Model of `SortLayersPlugin.unload` (lines 117-135). -/
def sl_unload (bar : MenuBar) (p : SLPlugin) : MenuBar × SLPlugin :=
  let bar' :=
    match p.sort_menu, p.menu_action, find_layer_menu_idx bar with
    | some _, some act, some i =>
      let entry := bar.getD i ([], [])
      bar.set i (entry.1, entry.2.filter (fun lbl => decide (lbl ≠ act)))
    | _, _, _ => bar
  (bar',
   { sort_menu := none, menu_action := none, actions := [],
     original_order_clones := none, clearedConnected := false })

/-! ## Operation alphabets -/

/-- The tree-rewriting menu operations of `SortAndGroupLayersPlugin`:
the six sort actions are instances of `sortOp` (each sort key inducing a
comparator on nodes), and the two group actions carry the
host-determined layer properties they read. -/
inductive SAGOp where
  | sortOp (le : LNode → LNode → Bool) (rev : Bool)
  | groupGeom (kind : Nat → LayerKind)
  | groupFolder (pathOf : Nat → FPath)

/-- Apply one `SortAndGroupLayersPlugin` operation. -/
def applySAGOp : SAGOp → SAGState → SAGState
  | .sortOp le rev => sag_reorder_layers le rev
  | .groupGeom kind => sag_group_by_geometry kind
  | .groupFolder pathOf => sag_group_by_folder pathOf

/-- The tree-rewriting menu operations of `SortLayersPlugin` (the six
sort actions). -/
inductive SLOp where
  | sortOp (le : LNode → LNode → Bool) (rev : Bool)

/-- Apply one `SortLayersPlugin` operation. -/
def applySLOp : SLOp → SLState → SLState
  | .sortOp le rev => sl_reorder_layers le rev

/-! ## Basic lemmas about copies and rebuilding -/

mutual

theorem copy_node_id : ∀ n : LNode, copy_node n = n
  | .layer none _ _ => rfl
  | .layer (some _) _ _ => rfl
  | .group _ _ _ _ cs => by
    simp only [copy_node]
    rw [copy_node_list_id cs]

theorem copy_node_list_id : ∀ l : List LNode, copy_node_list l = l
  | [] => rfl
  | c :: t => by
    simp only [copy_node_list]
    rw [copy_node_id c, copy_node_list_id t]

end

theorem clone_map_id : ∀ l : List LNode, l.map clone = l
  | [] => rfl
  | c :: t => congrArg (fun x => c :: x) (clone_map_id t)

theorem removeN_bridge_off (l₁ : List LNode) :
    ∀ (l₂ : List LNode) (reg : List Nat),
      removeN l₁.length ⟨reg, l₁ ++ l₂, false⟩ = ⟨reg, l₂, false⟩ := by
  induction l₁ with
  | nil => intro l₂ reg; rfl
  | cons c t ih =>
    intro l₂ reg
    simp only [List.length_cons, removeN, List.cons_append, removeFirstChild]
    exact ih l₂ reg

theorem readdLost_of_subset (sub : List Nat) :
    ∀ reg : List Nat, (∀ x ∈ sub, x ∈ reg) → readdLost reg sub = reg := by
  induction sub with
  | nil => intro reg _; rfl
  | cons x t ih =>
    intro reg h
    have hx : x ∈ reg := h x (by simp)
    simp only [readdLost, List.foldl_cons, if_pos hx]
    exact ih reg (fun y hy => h y (by simp [hy]))


/-- The net effect of `_rebuild_tree`: the tree's children become exactly
the new children, the registry is unchanged, the bridge ends enabled, and
the plugin state is untouched. -/
theorem sag_rebuild_tree_eq (s : SAGState) (nc : List LNode) :
    sag_rebuild_tree s nc = ⟨⟨s.proj.registry, nc, true⟩, s.plug⟩ := by
  simp only [sag_rebuild_tree]
  rw [removeN_bridge_off s.proj.tree nc s.proj.registry,
    readdLost_of_subset s.proj.registry s.proj.registry (fun x hx => hx)]

theorem sag_save_proj (s : SAGState) :
    (sag_save_original_order s).proj = s.proj := by
  unfold sag_save_original_order
  cases s.plug.original_order_nodes <;> rfl

theorem sl_save_proj (s : SLState) :
    (sl_save_original_order s).proj = s.proj := by
  unfold sl_save_original_order
  cases s.plug.original_order_clones <;> rfl

/-- Every `SortAndGroupLayersPlugin` menu operation either returns with
the state untouched (empty tree / no layer nodes) or saves the original
order and rebuilds the tree with some new children. -/
theorem sag_op_cases (op : SAGOp) (s : SAGState) :
    applySAGOp op s = s ∨
      ∃ nc, applySAGOp op s = sag_rebuild_tree (sag_save_original_order s) nc := by
  cases op with
  | sortOp le rev =>
    by_cases he : s.proj.tree.isEmpty
    · left
      simp only [applySAGOp, sag_reorder_layers]
      rw [if_pos he]
    · right
      exact ⟨_, by simp only [applySAGOp, sag_reorder_layers]; rw [if_neg he]⟩
  | groupGeom kind =>
    by_cases he : (flattenList s.proj.tree).isEmpty
    · left
      simp only [applySAGOp, sag_group_by_geometry]
      rw [if_pos he]
    · right
      exact ⟨_, by simp only [applySAGOp, sag_group_by_geometry]; rw [if_neg he]⟩
  | groupFolder pathOf =>
    by_cases he : (flattenList s.proj.tree).isEmpty
    · left
      simp only [applySAGOp, sag_group_by_folder]
      rw [if_pos he]
    · right
      exact ⟨_, by simp only [applySAGOp, sag_group_by_folder]; rw [if_neg he]⟩

/-- Every `SortLayersPlugin` menu operation either returns with the
state untouched or saves the original order and replaces the tree with
some new children, leaving the registry unchanged and the bridge
enabled. -/
theorem sl_op_cases (op : SLOp) (s : SLState) :
    applySLOp op s = s ∨
      ∃ nc, applySLOp op s =
        ⟨⟨(sl_save_original_order s).proj.registry, nc, true⟩,
         (sl_save_original_order s).plug⟩ := by
  cases op with
  | sortOp le rev =>
    by_cases he : s.proj.tree.isEmpty
    · left
      simp only [applySLOp, sl_reorder_layers]
      rw [if_pos he]
    · right
      refine ⟨(pySorted (pyCmp le rev) (sl_save_original_order s).proj.tree).map clone, ?_⟩
      simp only [applySLOp, sl_reorder_layers]
      rw [if_neg he]
      rfl

theorem sag_save_of_some (s : SAGState) (o : List LNode)
    (h : s.plug.original_order_nodes = some o) : sag_save_original_order s = s := by
  unfold sag_save_original_order
  rw [h]

theorem sag_save_of_none (s : SAGState)
    (h : s.plug.original_order_nodes = none) :
    sag_save_original_order s =
      { s with plug :=
        { s.plug with
          original_order_nodes := some (copy_node_list s.proj.tree),
          saved_layers := some s.proj.registry } } := by
  unfold sag_save_original_order
  rw [h]

theorem sl_save_of_some (s : SLState) (o : List LNode)
    (h : s.plug.original_order_clones = some o) : sl_save_original_order s = s := by
  unfold sl_save_original_order
  rw [h]

theorem sl_save_of_none (s : SLState)
    (h : s.plug.original_order_clones = none) :
    sl_save_original_order s =
      { s with plug :=
        { s.plug with original_order_clones := some (s.proj.tree.map clone) } } := by
  unfold sl_save_original_order
  rw [h]

/-! ## Snapshot invariants -/

/-- The snapshot of state `s`, relative to an initial tree `t0`: either
no snapshot exists yet and the tree is still `t0`, or the snapshot holds
exactly `t0`. -/
def sagOrigDescribes (t0 : List LNode) (s : SAGState) : Prop :=
  (s.plug.original_order_nodes = none ∧ s.proj.tree = t0) ∨
    s.plug.original_order_nodes = some t0

/-- Analogue of `sagOrigDescribes` for `SortLayersPlugin`. -/
def slOrigDescribes (t0 : List LNode) (s : SLState) : Prop :=
  (s.plug.original_order_clones = none ∧ s.proj.tree = t0) ∨
    s.plug.original_order_clones = some t0

theorem sag_save_sets (t0 : List LNode) (s : SAGState)
    (h : sagOrigDescribes t0 s) :
    (sag_save_original_order s).plug.original_order_nodes = some t0 := by
  rcases h with ⟨hn, ht⟩ | hs
  · rw [sag_save_of_none s hn]
    simp [copy_node_list_id, ht]
  · rw [sag_save_of_some s t0 hs]
    exact hs

theorem sl_save_sets (t0 : List LNode) (s : SLState)
    (h : slOrigDescribes t0 s) :
    (sl_save_original_order s).plug.original_order_clones = some t0 := by
  rcases h with ⟨hn, ht⟩ | hs
  · rw [sl_save_of_none s hn]
    simp [clone_map_id, ht]
  · rw [sl_save_of_some s t0 hs]
    exact hs

theorem sag_op_describes (t0 : List LNode) (op : SAGOp) (s : SAGState)
    (h : sagOrigDescribes t0 s) : sagOrigDescribes t0 (applySAGOp op s) := by
  rcases sag_op_cases op s with heq | ⟨nc, heq⟩
  · rw [heq]; exact h
  · rw [heq, sag_rebuild_tree_eq]
    right
    exact sag_save_sets t0 s h

theorem sl_op_describes (t0 : List LNode) (op : SLOp) (s : SLState)
    (h : slOrigDescribes t0 s) : slOrigDescribes t0 (applySLOp op s) := by
  rcases sl_op_cases op s with heq | ⟨nc, heq⟩
  · rw [heq]; exact h
  · rw [heq]
    right
    exact sl_save_sets t0 s h

theorem sag_ops_describes (t0 : List LNode) (ops : List SAGOp) :
    ∀ s : SAGState, sagOrigDescribes t0 s →
      sagOrigDescribes t0 (ops.foldl (fun st op => applySAGOp op st) s) := by
  induction ops with
  | nil => intro s h; exact h
  | cons op t ih =>
    intro s h
    exact ih (applySAGOp op s) (sag_op_describes t0 op s h)

theorem sl_ops_describes (t0 : List LNode) (ops : List SLOp) :
    ∀ s : SLState, slOrigDescribes t0 s →
      slOrigDescribes t0 (ops.foldl (fun st op => applySLOp op st) s) := by
  induction ops with
  | nil => intro s h; exact h
  | cons op t ih =>
    intro s h
    exact ih (applySLOp op s) (sl_op_describes t0 op s h)

theorem sag_restore_tree (t0 : List LNode) (s : SAGState)
    (h : sagOrigDescribes t0 s) :
    (sag_restore_original_order s).proj.tree = t0 := by
  unfold sag_restore_original_order
  rcases h with ⟨hn, ht⟩ | hs
  · rw [hn]; exact ht
  · rw [hs]
    simp only [sag_rebuild_tree_eq]
    exact copy_node_list_id t0

theorem sl_restore_tree (t0 : List LNode) (s : SLState)
    (h : slOrigDescribes t0 s) :
    (sl_restore_original_order s).proj.tree = t0 := by
  unfold sl_restore_original_order
  rcases h with ⟨hn, ht⟩ | hs
  · rw [hn]; exact ht
  · rw [hs]
    simp only []
    show ([] : List LNode) ++ t0.map clone = t0
    rw [List.nil_append, clone_map_id]

/-! ## C1: restore round trip -/

/-- C1: for every layer tree and every sequence of sort or group
operations (the first effective one saves a snapshot of the root's
children), `restore_original_order` rebuilds the tree to exactly the
structure it had before the first operation — same order and nesting of
layer and group nodes, same group names, same visibility-checked and
expanded flags (`LNode` equality captures all of these) — for both
`SortAndGroupLayersPlugin` and `SortLayersPlugin`. -/
theorem restore_round_trip :
    (∀ (ops : List SAGOp) (s : SAGState),
       s.plug.original_order_nodes = none →
       (sag_restore_original_order
         (ops.foldl (fun st op => applySAGOp op st) s)).proj.tree = s.proj.tree) ∧
    (∀ (ops : List SLOp) (s : SLState),
       s.plug.original_order_clones = none →
       (sl_restore_original_order
         (ops.foldl (fun st op => applySLOp op st) s)).proj.tree = s.proj.tree) := by
  constructor
  · intro ops s h
    exact sag_restore_tree s.proj.tree _ (sag_ops_describes _ ops s (Or.inl ⟨h, rfl⟩))
  · intro ops s h
    exact sl_restore_tree s.proj.tree _ (sl_ops_describes _ ops s (Or.inl ⟨h, rfl⟩))

/-- Witness for C1 at a concrete two-layer project and one sort
operation per plugin. -/
theorem restore_round_trip_witness :
    (sag_restore_original_order
      (([SAGOp.sortOp (fun _ _ => true) false]).foldl (fun st op => applySAGOp op st)
        ⟨⟨[1, 2], [LNode.layer (some 2) true true, LNode.layer (some 1) true false], true⟩,
         SAGPlugin.init⟩)).proj.tree =
      [LNode.layer (some 2) true true, LNode.layer (some 1) true false] ∧
    (sl_restore_original_order
      (([SLOp.sortOp (fun _ _ => true) false]).foldl (fun st op => applySLOp op st)
        ⟨⟨[1, 2], [LNode.layer (some 2) true true, LNode.layer (some 1) true false], true⟩,
         ⟨none, none, [], none, false⟩⟩)).proj.tree =
      [LNode.layer (some 2) true true, LNode.layer (some 1) true false] :=
  ⟨restore_round_trip.1 [SAGOp.sortOp (fun _ _ => true) false] _ rfl,
   restore_round_trip.2 [SLOp.sortOp (fun _ _ => true) false] _ rfl⟩

/-! ## C4: the undo snapshot is saved exactly once -/

/-- C4: `_save_original_order` on a state that already holds a snapshot
is the identity; consequently every operation performed after the first
leaves the snapshot unchanged, and after any operation sequence starting
from a state with no snapshot, either no snapshot was taken and the tree
is untouched, or the snapshot holds exactly the tree from before the
first effective operation.  Both plugins are covered. -/
theorem save_original_order_once :
    (∀ (s : SAGState) (o : List LNode),
       s.plug.original_order_nodes = some o → sag_save_original_order s = s) ∧
    (∀ (op : SAGOp) (s : SAGState) (o : List LNode),
       s.plug.original_order_nodes = some o →
       (applySAGOp op s).plug.original_order_nodes = some o) ∧
    (∀ (ops : List SAGOp) (s : SAGState),
       s.plug.original_order_nodes = none →
       sagOrigDescribes s.proj.tree (ops.foldl (fun st op => applySAGOp op st) s)) ∧
    (∀ (s : SLState) (o : List LNode),
       s.plug.original_order_clones = some o → sl_save_original_order s = s) ∧
    (∀ (op : SLOp) (s : SLState) (o : List LNode),
       s.plug.original_order_clones = some o →
       (applySLOp op s).plug.original_order_clones = some o) := by
  refine ⟨sag_save_of_some, ?_, ?_, sl_save_of_some, ?_⟩
  · intro op s o h
    rcases sag_op_cases op s with heq | ⟨nc, heq⟩
    · rw [heq]; exact h
    · rw [heq, sag_rebuild_tree_eq]
      show (sag_save_original_order s).plug.original_order_nodes = some o
      rw [sag_save_of_some s o h]
      exact h
  · intro ops s h
    exact sag_ops_describes s.proj.tree ops s (Or.inl ⟨h, rfl⟩)
  · intro op s o h
    rcases sl_op_cases op s with heq | ⟨nc, heq⟩
    · rw [heq]; exact h
    · rw [heq]
      show (sl_save_original_order s).plug.original_order_clones = some o
      rw [sl_save_of_some s o h]
      exact h

/-- Witness for C4 at a concrete snapshot-holding state. -/
theorem save_original_order_once_witness :
    sag_save_original_order
      ⟨⟨[1], [LNode.layer (some 1) true true], true⟩,
       ⟨none, none, none, none, [], some [LNode.layer (some 1) true true], some [1], true⟩⟩ =
      ⟨⟨[1], [LNode.layer (some 1) true true], true⟩,
       ⟨none, none, none, none, [], some [LNode.layer (some 1) true true], some [1], true⟩⟩ :=
  save_original_order_once.1 _ [LNode.layer (some 1) true true] rfl

/-! ## C2: registry preservation -/

/-- The saved-layers dict only holds layers that are still registered
(true in every state the plugin itself produces). -/
def sagSavedRegistered (s : SAGState) : Prop :=
  ∀ ids, s.plug.saved_layers = some ids → ∀ x ∈ ids, x ∈ s.proj.registry

theorem sag_op_registry (op : SAGOp) (s : SAGState) :
    (applySAGOp op s).proj.registry = s.proj.registry := by
  rcases sag_op_cases op s with heq | ⟨nc, heq⟩
  · rw [heq]
  · rw [heq, sag_rebuild_tree_eq]
    show (sag_save_original_order s).proj.registry = s.proj.registry
    rw [sag_save_proj]

theorem sag_op_savedRegistered (op : SAGOp) (s : SAGState)
    (h : sagSavedRegistered s) : sagSavedRegistered (applySAGOp op s) := by
  rcases sag_op_cases op s with heq | ⟨nc, heq⟩
  · rw [heq]; exact h
  · rw [heq, sag_rebuild_tree_eq]
    intro ids hids x hx
    cases ho : s.plug.original_order_nodes with
    | some o =>
      rw [sag_save_of_some s o ho] at hids ⊢
      exact h ids hids x hx
    | none =>
      rw [sag_save_of_none s ho] at hids ⊢
      simp only at hids
      simp only [sag_save_proj]
      cases hids
      exact hx

theorem sag_restore_registry (s : SAGState) (h : sagSavedRegistered s) :
    (sag_restore_original_order s).proj.registry = s.proj.registry := by
  unfold sag_restore_original_order
  cases ho : s.plug.original_order_nodes with
  | none => rfl
  | some saved =>
    cases hl : s.plug.saved_layers with
    | none => simp only [sag_rebuild_tree_eq]
    | some ids =>
      simp only [sag_rebuild_tree_eq]
      exact readdLost_of_subset ids s.proj.registry (h ids hl)

/-- C2: every sort operation, group operation, and restore leaves the
project's map-layer registry exactly as it was — no layer is
deregistered and none is added — in both plugins; for restore this holds
in every state whose saved-layer dict only references registered layers
(an invariant the operations themselves maintain, stated as the third
conjunct). -/
theorem registry_preservation :
    (∀ (op : SAGOp) (s : SAGState),
       (applySAGOp op s).proj.registry = s.proj.registry) ∧
    (∀ s : SAGState, sagSavedRegistered s →
       (sag_restore_original_order s).proj.registry = s.proj.registry) ∧
    (∀ (op : SAGOp) (s : SAGState), sagSavedRegistered s →
       sagSavedRegistered (applySAGOp op s)) ∧
    (∀ (op : SLOp) (s : SLState),
       (applySLOp op s).proj.registry = s.proj.registry) ∧
    (∀ s : SLState,
       (sl_restore_original_order s).proj.registry = s.proj.registry) := by
  refine ⟨sag_op_registry, sag_restore_registry, sag_op_savedRegistered, ?_, ?_⟩
  · intro op s
    rcases sl_op_cases op s with heq | ⟨nc, heq⟩
    · rw [heq]
    · rw [heq]
      show (sl_save_original_order s).proj.registry = s.proj.registry
      rw [sl_save_proj]
  · intro s
    unfold sl_restore_original_order
    cases ho : s.plug.original_order_clones with
    | none => rfl
    | some saved => rfl

/-- Witness for C2 at a concrete registered-layers state. -/
theorem registry_preservation_witness :
    (sag_restore_original_order
      ⟨⟨[1, 2], [LNode.layer (some 1) true true], true⟩,
       ⟨none, none, none, none, [], some [LNode.layer (some 2) true true], some [2], true⟩⟩).proj.registry
      = [1, 2] :=
  registry_preservation.2.1 _
    (fun ids hids x hx => by
      cases hids
      simp only [List.mem_singleton] at hx
      simp [hx])

/-! ## C6: snapshot transience -/

/-- C6: the saved original order exists only in memory for the current
session — the `cleared`-signal handler `_clear_saved_order` and the
plugin `unload` both reset the saved node snapshot (and, for
`SortAndGroupLayersPlugin`, the saved layer dict) to `None`, in both
plugins. -/
theorem snapshot_transience :
    (∀ p : SAGPlugin,
       (sag_clear_saved_order p).original_order_nodes = none ∧
       (sag_clear_saved_order p).saved_layers = none) ∧
    (∀ (bar : MenuBar) (p : SAGPlugin),
       (sag_unload bar p).2.original_order_nodes = none ∧
       (sag_unload bar p).2.saved_layers = none) ∧
    (∀ p : SLPlugin, (sl_clear_saved_order p).original_order_clones = none) ∧
    (∀ (bar : MenuBar) (p : SLPlugin),
       (sl_unload bar p).2.original_order_clones = none) :=
  ⟨fun _ => ⟨rfl, rfl⟩, fun _ _ => ⟨rfl, rfl⟩, fun _ => rfl, fun _ _ => rfl⟩

/-! ## C7: menu injection -/

/-- C7: `initGui` adds the plugin's two submenus under the first
menu-bar menu whose title with ampersands stripped equals "Layer"; if no
such menu exists, `initGui` returns leaving the menu bar and the whole
plugin state (in particular: no menus, no actions, no `cleared`-signal
connection) exactly as they were. -/
theorem menu_injection :
    (∀ (bar : MenuBar) (p : SAGPlugin),
       find_layer_menu_idx bar = none → sag_initGui bar p = (bar, p)) ∧
    (∀ bar : MenuBar,
       find_layer_menu_idx bar = none ↔ ∀ e ∈ bar, stripAmp e.1 ≠ "Layer".data) ∧
    (∀ (bar : MenuBar) (p : SAGPlugin) (i : Nat),
       find_layer_menu_idx bar = some i →
       ∃ entry, bar.get? i = some entry ∧
         stripAmp entry.1 = "Layer".data ∧
         (∀ j, j < i → ∀ e, bar.get? j = some e → stripAmp e.1 ≠ "Layer".data) ∧
         sag_initGui bar p =
           (bar.set i (entry.1, entry.2 ++ ["Sort Layers".data, "Group Layers".data]),
            { p with
              sort_menu := some "Sort Layers".data,
              group_menu := some "Group Layers".data,
              sort_menu_action := some "Sort Layers".data,
              group_menu_action := some "Group Layers".data,
              actions := p.actions ++ sagSortActionLabels ++ sagGroupActionLabels,
              clearedConnected := true })) := by
  refine ⟨?_, ?_, ?_⟩
  · intro bar p h
    unfold sag_initGui
    rw [h]
  · intro bar
    unfold find_layer_menu_idx
    rw [List.findIdx?_eq_none_iff]
    constructor
    · intro h e he
      have := h e he
      simpa using this
    · intro h e he
      simpa using h e he
  · intro bar p i h
    have hspec := List.findIdx?_eq_some_iff_getElem.mp h
    rcases hspec with ⟨hlt, hp, hprev⟩
    refine ⟨bar[i], ?_, ?_, ?_, ?_⟩
    · rw [List.get?_eq_getElem?, List.getElem?_eq_getElem hlt]
    · simpa using hp
    · intro j hj e hje
      have hj' : j < bar.length := Nat.lt_trans hj hlt
      have := hprev j hj
      rw [List.get?_eq_getElem?, List.getElem?_eq_getElem hj'] at hje
      cases hje
      simpa using this
    · unfold sag_initGui
      rw [h]
      have hgd : bar.getD i ([], []) = bar[i] := List.getD_eq_getElem bar ([], []) hlt
      simp only [hgd]

/-- Witness for C7: a concrete menu bar with an "&Layer" menu, and one
without. -/
theorem menu_injection_witness :
    sag_initGui [] SAGPlugin.init = ([], SAGPlugin.init) ∧
    ∃ entry, ([(("&Layer").data, ([] : List Str))] : MenuBar).get? 0 = some entry ∧
      stripAmp entry.1 = "Layer".data ∧
      (∀ j, j < 0 → ∀ e, ([(("&Layer").data, ([] : List Str))] : MenuBar).get? j = some e →
        stripAmp e.1 ≠ "Layer".data) ∧
      sag_initGui [(("&Layer").data, ([] : List Str))] SAGPlugin.init =
        (([(("&Layer").data, ([] : List Str))] : MenuBar).set 0
          (entry.1, entry.2 ++ ["Sort Layers".data, "Group Layers".data]),
         { SAGPlugin.init with
           sort_menu := some "Sort Layers".data,
           group_menu := some "Group Layers".data,
           sort_menu_action := some "Sort Layers".data,
           group_menu_action := some "Group Layers".data,
           actions := SAGPlugin.init.actions ++ sagSortActionLabels ++ sagGroupActionLabels,
           clearedConnected := true }) :=
  ⟨menu_injection.1 [] SAGPlugin.init rfl,
   menu_injection.2.2 [(("&Layer").data, ([] : List Str))] SAGPlugin.init 0 (by decide)⟩

/-! ## C3: bridge suspension during bulk rewrites -/

/-- Events of a bulk tree rewrite that are relevant to the
layer-tree-registry bridge: toggling the bridge, removing an existing
child node, adding a child node. -/
inductive BridgeEv where
  | disable
  | enable
  | removeChild
  | addChild
deriving DecidableEq

/-- Bridge state transition for one event. -/
def bridgeStep (b : Bool) : BridgeEv → Bool
  | .disable => false
  | .enable => true
  | .removeChild => b
  | .addChild => b

/-- The bridge state after a trace, starting from the enabled state. -/
def bridgeAfter (tr : List BridgeEv) : Bool := tr.foldl bridgeStep true

/-- Checks that every `removeChild` event in the trace happens while the
bridge is disabled; `b` is the bridge state at the start of the trace. -/
def removesBridgeSafe : Bool → List BridgeEv → Bool
  | _, [] => true
  | _, .disable :: t => removesBridgeSafe false t
  | _, .enable :: t => removesBridgeSafe true t
  | b, .removeChild :: t => !b && removesBridgeSafe b t
  | b, .addChild :: t => removesBridgeSafe b t

/-- Event trace of `SortAndGroupLayersPlugin._rebuild_tree` (lines
343-371): phase 1 appends the new children with the bridge still
enabled; then the bridge is disabled and the original children are
removed inside a `try` block; `failAfter = some k` models an exception
raised after `k` removals (the `finally` clause re-enables the bridge in
every case, and the safety-net re-registration loop emits no
tree-rewrite events). -/
def sag_rebuild_tree_trace (origCount newCount : Nat)
    (failAfter : Option Nat) : List BridgeEv :=
  let k := min (failAfter.getD origCount) origCount
  List.replicate newCount BridgeEv.addChild ++
    BridgeEv.disable ::
      (List.replicate k BridgeEv.removeChild ++ [BridgeEv.enable])

/-- Event trace of the bridge-guarded rewrites of `SortLayersPlugin`
(`_reorder_layers` lines 200-207 and `restore_original_order` lines
356-362): the bridge is disabled, then inside a `try` block all
`origCount` children are removed and `newCount` clones are added;
`failAfter = some k` models an exception after `k` steps of that body;
the `finally` clause re-enables the bridge in every case. -/
def sl_rewrite_trace (origCount newCount : Nat)
    (failAfter : Option Nat) : List BridgeEv :=
  let total := origCount + newCount
  let k := min (failAfter.getD total) total
  BridgeEv.disable ::
    (List.replicate (min k origCount) BridgeEv.removeChild ++
      (List.replicate (k - origCount) BridgeEv.addChild ++ [BridgeEv.enable]))

theorem removesBridgeSafe_replicate (ev : BridgeEv) (hev : ev = BridgeEv.removeChild → False)
    (n : Nat) : ∀ (b : Bool) (t : List BridgeEv),
      (∀ b', bridgeStep b' ev = b') →
      removesBridgeSafe b (List.replicate n ev ++ t) =
        removesBridgeSafe b t := by
  induction n with
  | zero => intro b t _; rfl
  | succ m ih =>
    intro b t hstep
    rw [List.replicate_succ, List.cons_append]
    cases ev with
    | disable => exact absurd (hstep true) (by simp [bridgeStep])
    | enable => exact absurd (hstep false) (by simp [bridgeStep])
    | removeChild => exact absurd rfl hev
    | addChild => exact ih b t hstep

theorem removesBridgeSafe_removes (n : Nat) :
    ∀ t : List BridgeEv,
      removesBridgeSafe false (List.replicate n BridgeEv.removeChild ++ t) =
        removesBridgeSafe false t := by
  induction n with
  | zero => intro t; rfl
  | succ m ih =>
    intro t
    rw [List.replicate_succ, List.cons_append]
    show (!false && removesBridgeSafe false (List.replicate m BridgeEv.removeChild ++ t)) = _
    rw [ih t]
    simp

theorem foldl_bridgeStep_skip (ev : BridgeEv) (hstep : ∀ b, bridgeStep b ev = b) (n : Nat) :
    ∀ (b : Bool) (t : List BridgeEv),
      List.foldl bridgeStep b (List.replicate n ev ++ t) = List.foldl bridgeStep b t := by
  induction n with
  | zero => intro b t; rfl
  | succ m ih =>
    intro b t
    rw [List.replicate_succ, List.cons_append, List.foldl_cons, hstep b]
    exact ih b t

/-- C3: in every bulk rewrite of the tree's children (the two-phase
rewrite of `_rebuild_tree` in `SortAndGroupLayersPlugin`, and the
remove-and-re-add rewrites of `_reorder_layers` and
`restore_original_order` in `SortLayersPlugin`), every removal of an
existing child happens while the bridge is disabled, and the bridge is
re-enabled when the rewrite finishes — including when an exception is
raised after any number of steps of the guarded body (`failAfter`), so
no operation ever returns with the bridge left disabled. -/
theorem bridge_suspension :
    ∀ (origCount newCount : Nat) (failAfter : Option Nat),
      (removesBridgeSafe true (sag_rebuild_tree_trace origCount newCount failAfter) = true ∧
       bridgeAfter (sag_rebuild_tree_trace origCount newCount failAfter) = true) ∧
      (removesBridgeSafe true (sl_rewrite_trace origCount newCount failAfter) = true ∧
       bridgeAfter (sl_rewrite_trace origCount newCount failAfter) = true) := by
  intro origCount newCount failAfter
  refine ⟨⟨?_, ?_⟩, ⟨?_, ?_⟩⟩
  · show removesBridgeSafe true
      (List.replicate newCount BridgeEv.addChild ++
        BridgeEv.disable ::
          (List.replicate (min (failAfter.getD origCount) origCount)
            BridgeEv.removeChild ++ [BridgeEv.enable])) = true
    rw [removesBridgeSafe_replicate BridgeEv.addChild (by intro h; cases h) newCount true _
      (fun b' => rfl)]
    show removesBridgeSafe false
      (List.replicate (min (failAfter.getD origCount) origCount)
        BridgeEv.removeChild ++ [BridgeEv.enable]) = true
    rw [removesBridgeSafe_removes]
    rfl
  · show List.foldl bridgeStep true
      (List.replicate newCount BridgeEv.addChild ++
        BridgeEv.disable ::
          (List.replicate (min (failAfter.getD origCount) origCount)
            BridgeEv.removeChild ++ [BridgeEv.enable])) = true
    rw [foldl_bridgeStep_skip BridgeEv.addChild (fun b => rfl) newCount true _,
      List.foldl_cons]
    show List.foldl bridgeStep false
      (List.replicate (min (failAfter.getD origCount) origCount)
        BridgeEv.removeChild ++ [BridgeEv.enable]) = true
    rw [foldl_bridgeStep_skip BridgeEv.removeChild (fun b => rfl) _ false _]
    rfl
  · show removesBridgeSafe false
      (List.replicate (min (min (failAfter.getD (origCount + newCount)) (origCount + newCount))
          origCount) BridgeEv.removeChild ++
        (List.replicate
            ((min (failAfter.getD (origCount + newCount)) (origCount + newCount)) - origCount)
            BridgeEv.addChild ++ [BridgeEv.enable])) = true
    rw [removesBridgeSafe_removes]
    rw [removesBridgeSafe_replicate BridgeEv.addChild (by intro h; cases h) _ false _
      (fun b' => rfl)]
    rfl
  · show List.foldl bridgeStep false
      (List.replicate (min (min (failAfter.getD (origCount + newCount)) (origCount + newCount))
          origCount) BridgeEv.removeChild ++
        (List.replicate
            ((min (failAfter.getD (origCount + newCount)) (origCount + newCount)) - origCount)
            BridgeEv.addChild ++ [BridgeEv.enable])) = true
    rw [foldl_bridgeStep_skip BridgeEv.removeChild (fun b => rfl) _ false _,
      foldl_bridgeStep_skip BridgeEv.addChild (fun b => rfl) _ false _]
    rfl

/-! ## Characterisation of the setdefault-append dict -/

theorem lookupA_setdefaultAppend [DecidableEq κ] (m : List (κ × List β)) (k : κ) (b : β) :
    ∀ key, lookupA (setdefaultAppend m k b) key =
      if key = k then some (((lookupA m k).getD []) ++ [b]) else lookupA m key := by
  induction m with
  | nil =>
    intro key
    by_cases h : key = k
    · subst h; simp [setdefaultAppend, lookupA]
    · simp [setdefaultAppend, lookupA, h]
  | cons e t ih =>
    intro key
    obtain ⟨k', xs⟩ := e
    by_cases h1 : k' = k
    · subst h1
      by_cases h2 : key = k'
      · subst h2
        simp [setdefaultAppend, lookupA]
      · simp [setdefaultAppend, lookupA, h2]
    · have h1' : ¬ k = k' := fun h => h1 h.symm
      by_cases h2 : key = k'
      · have h3 : ¬ key = k := fun h => h1 (h2.symm.trans h)
        simp [setdefaultAppend, lookupA, h1, h2, h3]
      · simp only [setdefaultAppend, if_neg h1, lookupA, if_neg h2]
        rw [ih key]
        by_cases h4 : key = k
        · rw [if_pos h4, if_pos h4]
          simp only [lookupA, if_neg h1']
        · rw [if_neg h4, if_neg h4]

theorem keys_setdefaultAppend [DecidableEq κ] (m : List (κ × List β)) (k : κ) (b : β) :
    (setdefaultAppend m k b).map Prod.fst =
      if (lookupA m k).isSome then m.map Prod.fst else m.map Prod.fst ++ [k] := by
  induction m with
  | nil => simp [setdefaultAppend, lookupA]
  | cons e t ih =>
    obtain ⟨k', xs⟩ := e
    by_cases h1 : k' = k
    · subst h1
      simp [setdefaultAppend, lookupA]
    · have h1' : ¬ k = k' := fun h => h1 h.symm
      simp only [setdefaultAppend, if_neg h1, List.map_cons, lookupA, if_neg h1', ih]
      by_cases h2 : (lookupA t k).isSome
      · rw [if_pos h2, if_pos h2]
      · rw [if_neg h2, if_neg h2, List.cons_append]

theorem lookupA_isSome_iff [DecidableEq κ] (m : List (κ × β)) (key : κ) :
    (lookupA m key).isSome ↔ key ∈ m.map Prod.fst := by
  induction m with
  | nil => simp [lookupA]
  | cons e t ih =>
    obtain ⟨k', v⟩ := e
    by_cases h : key = k'
    · subst h; simp [lookupA]
    · simp [lookupA, h, ih]

theorem lookupA_mem [DecidableEq κ] (m : List (κ × β)) (key : κ) (v : β)
    (h : lookupA m key = some v) : (key, v) ∈ m := by
  induction m with
  | nil => exact absurd h (by simp [lookupA])
  | cons e t ih =>
    obtain ⟨k', v'⟩ := e
    by_cases hk : key = k'
    · subst hk
      have hv : v' = v := by simpa [lookupA] using h
      subst hv
      simp
    · simp only [lookupA, if_neg hk] at h
      exact List.mem_cons_of_mem _ (ih h)

theorem mem_lookupA_of_nodupKeys [DecidableEq κ] (m : List (κ × β))
    (hnd : (m.map Prod.fst).Nodup) (key : κ) (v : β)
    (h : (key, v) ∈ m) : lookupA m key = some v := by
  induction m with
  | nil => exact absurd h (by simp)
  | cons e t ih =>
    obtain ⟨k', v'⟩ := e
    simp only [List.map_cons, List.nodup_cons] at hnd
    rcases List.mem_cons.mp h with he | ht
    · cases he
      simp [lookupA]
    · have hkne : key ≠ k' := by
        intro hkk
        subst hkk
        exact hnd.1 (List.mem_map.mpr ⟨(key, v), ht, rfl⟩)
      simp only [lookupA, if_neg hkne]
      exact ih hnd.2 ht

/-- Description of the rest list produced by `partitionByKey`. -/
theorem partitionByKey_snd [DecidableEq κ] (keyOf : α → Option κ) (val : α → β)
    (l : List α) :
    ∀ acc : List (κ × List β) × List α,
      (l.foldl
        (fun acc a =>
          match keyOf a with
          | some k => (setdefaultAppend acc.1 k (val a), acc.2)
          | none => (acc.1, acc.2 ++ [a])) acc).2 =
      acc.2 ++ l.filter (fun a => (keyOf a).isNone) := by
  induction l with
  | nil => intro acc; simp
  | cons a t ih =>
    intro acc
    rw [List.foldl_cons]
    cases hk : keyOf a with
    | some k =>
      rw [ih]
      have : (keyOf a).isNone = false := by rw [hk]; rfl
      simp [List.filter_cons, this]
    | none =>
      rw [ih]
      have : (keyOf a).isNone = true := by rw [hk]; rfl
      simp [List.filter_cons, this]

/-- Combination of an accumulated bucket with the bucket contributed by
the remaining elements. -/
def bucketSpec (g0 : Option (List β)) (g : List β) : Option (List β) :=
  match g0 with
  | some xs => some (xs ++ g)
  | none => if g.isEmpty then none else some g

/-- Description of the buckets produced by `partitionByKey`. -/
theorem partitionByKey_lookup [DecidableEq κ] (keyOf : α → Option κ) (val : α → β)
    (l : List α) :
    ∀ (acc : List (κ × List β) × List α) (key : κ),
      lookupA (l.foldl
        (fun acc a =>
          match keyOf a with
          | some k => (setdefaultAppend acc.1 k (val a), acc.2)
          | none => (acc.1, acc.2 ++ [a])) acc).1 key =
      bucketSpec (lookupA acc.1 key)
        ((l.filter (fun a => decide (keyOf a = some key))).map val) := by
  induction l with
  | nil =>
    intro acc key
    simp only [List.foldl_nil, List.filter_nil, List.map_nil, bucketSpec]
    cases lookupA acc.1 key with
    | some xs => simp
    | none => rfl
  | cons a t ih =>
    intro acc key
    rw [List.foldl_cons]
    cases hk : keyOf a with
    | some k =>
      by_cases hkey : key = k
      · subst hkey
        have hfa : decide (keyOf a = some key) = true := by rw [hk]; simp
        rw [ih]
        rw [lookupA_setdefaultAppend acc.1 key (val a) key, if_pos rfl]
        simp only [List.filter_cons, hfa, if_true, List.map_cons]
        cases hacc : lookupA acc.1 key with
        | some xs => simp [bucketSpec, hacc]
        | none => simp [bucketSpec, hacc]
      · have hfa : decide (keyOf a = some key) = false := by
          rw [hk]; simp; exact fun hkk => hkey hkk.symm
        rw [ih]
        rw [lookupA_setdefaultAppend acc.1 k (val a) key, if_neg hkey]
        simp [List.filter_cons, hfa]
    | none =>
      have hfa : decide (keyOf a = some key) = false := by rw [hk]; simp
      rw [ih]
      simp [List.filter_cons, hfa]

/-- The bucket keys produced by `partitionByKey` carry no duplicates. -/
theorem partitionByKey_keys_nodup [DecidableEq κ] (keyOf : α → Option κ) (val : α → β)
    (l : List α) :
    ∀ acc : List (κ × List β) × List α, (acc.1.map Prod.fst).Nodup →
      ((l.foldl
        (fun acc a =>
          match keyOf a with
          | some k => (setdefaultAppend acc.1 k (val a), acc.2)
          | none => (acc.1, acc.2 ++ [a])) acc).1.map Prod.fst).Nodup := by
  induction l with
  | nil => intro acc h; simpa using h
  | cons a t ih =>
    intro acc h
    rw [List.foldl_cons]
    cases hk : keyOf a with
    | some k =>
      refine ih _ ?_
      rw [keys_setdefaultAppend]
      by_cases hs : (lookupA acc.1 k).isSome
      · rw [if_pos hs]; exact h
      · rw [if_neg hs]
        rw [List.nodup_append]
        refine ⟨h, List.nodup_singleton k, ?_⟩
        intro x hx hxk
        rw [List.mem_singleton] at hxk
        subst hxk
        rw [← lookupA_isSome_iff] at hx
        exact hs hx
    | none => exact ih _ h

/-! ## Permutation properties of sorting and flattening -/

theorem stableInsert_perm (le : α → α → Bool) (a : α) :
    ∀ l : List α, (stableInsert le a l).Perm (a :: l) := by
  intro l
  induction l with
  | nil => exact List.Perm.refl _
  | cons b t ih =>
    by_cases h : le a b
    · simp [stableInsert, h]
    · simp only [stableInsert, h, Bool.false_eq_true, if_false]
      exact (List.Perm.cons b ih).trans (List.Perm.swap a b t)

theorem pySorted_perm (le : α → α → Bool) :
    ∀ l : List α, (pySorted le l).Perm l := by
  intro l
  induction l with
  | nil => exact List.Perm.refl _
  | cons a t ih =>
    show (stableInsert le a (pySorted le t)).Perm (a :: t)
    exact (stableInsert_perm le a (pySorted le t)).trans (List.Perm.cons a ih)

theorem flattenList_eq_flatMap : ∀ l : List LNode, flattenList l = l.flatMap flattenNode
  | [] => rfl
  | c :: t => by
    simp only [flattenList, List.flatMap_cons]
    rw [flattenList_eq_flatMap t]

mutual

theorem flattenNode_layers : ∀ c : LNode, ∀ n ∈ flattenNode c, n.isGroup = false
  | .layer r v e => by
    intro n hn
    simp only [flattenNode, List.mem_singleton] at hn
    subst hn
    rfl
  | .group _ _ _ _ cs => by
    intro n hn
    exact flattenList_layers cs n hn

theorem flattenList_layers : ∀ l : List LNode, ∀ n ∈ flattenList l, n.isGroup = false
  | [] => by intro n hn; exact absurd hn (by simp [flattenList])
  | c :: t => by
    intro n hn
    simp only [flattenList] at hn
    rcases List.mem_append.mp hn with h | h
    · exact flattenNode_layers c n h
    · exact flattenList_layers t n h

end

theorem flattenList_of_layers : ∀ l : List LNode,
    (∀ n ∈ l, n.isGroup = false) → flattenList l = l
  | [] => fun _ => rfl
  | c :: t => by
    intro h
    have hc := h c (by simp)
    cases c with
    | layer r v e =>
      simp only [flattenList, flattenNode]
      rw [flattenList_of_layers t (fun n hn => h n (List.mem_cons_of_mem _ hn))]
      rfl
    | group nm v e mx cs => exact absurd hc (by simp [LNode.isGroup])

theorem flattenList_perm (l₁ l₂ : List LNode) (h : l₁.Perm l₂) :
    (flattenList l₁).Perm (flattenList l₂) := by
  rw [flattenList_eq_flatMap, flattenList_eq_flatMap]
  exact List.Perm.flatMap_right flattenNode h

/-- Partition permutation: flat-mapping the per-key filters over a
duplicate-free covering key list, followed by the keyless rest, is a
permutation of the original list. -/
theorem perm_partition [DecidableEq κ] (keyOf : α → Option κ) :
    ∀ (ks : List κ), ks.Nodup →
      ∀ l : List α, (∀ a ∈ l, ∀ k, keyOf a = some k → k ∈ ks) →
      ((ks.flatMap (fun k => l.filter (fun a => decide (keyOf a = some k)))) ++
        l.filter (fun a => (keyOf a).isNone)).Perm l := by
  intro ks
  induction ks with
  | nil =>
    intro _ l hcov
    simp only [List.flatMap_nil, List.nil_append]
    have : ∀ a ∈ l, (keyOf a).isNone = true := by
      intro a ha
      cases hk : keyOf a with
      | none => rfl
      | some k => exact absurd (hcov a ha k hk) (by simp)
    rw [List.filter_eq_self.mpr this]
  | cons k kt ih =>
    intro hnd l hcov
    rw [List.nodup_cons] at hnd
    set p : α → Bool := fun a => decide (keyOf a = some k) with hp
    set l' := l.filter (fun a => !p a) with hl'
    have hfilter : ∀ k', k' ∈ kt →
        l.filter (fun a => decide (keyOf a = some k')) =
          l'.filter (fun a => decide (keyOf a = some k')) := by
      intro k' hk'
      rw [hl', List.filter_filter]
      refine (List.filter_congr ?_).symm
      intro a _
      by_cases hka : keyOf a = some k'
      · have hk'k : ¬ (k' = k) := fun h => hnd.1 (h ▸ hk')
        have hkk : ¬ keyOf a = some k := by
          rw [hka]
          simp [hk'k]
        simpa [hka, hp, hkk] using hk'k
      · simp [hka]
    have hnone : l.filter (fun a => (keyOf a).isNone) =
        l'.filter (fun a => (keyOf a).isNone) := by
      rw [hl', List.filter_filter]
      refine (List.filter_congr ?_).symm
      intro a _
      cases hk : keyOf a with
      | none => simp [hp, hk]
      | some k' => simp [hk]
    have hcov' : ∀ a ∈ l', ∀ k', keyOf a = some k' → k' ∈ kt := by
      intro a ha k' hk'
      rw [hl', List.mem_filter] at ha
      have := hcov a ha.1 k' hk'
      rcases List.mem_cons.mp this with he | ht
      · exfalso
        have : p a = true := by simp [hp, hk', he]
        rw [this] at ha
        exact absurd ha.2 (by simp)
      · exact ht
    have hperm' := ih hnd.2 l' hcov'
    refine List.Perm.trans ?_ (List.filter_append_perm p l)
    rw [List.flatMap_cons, List.append_assoc, hnone,
      List.flatMap_congr (fun k' hk' => hfilter k' hk')]
    exact List.Perm.append_left _ hperm'

/-! ## Top-level corollaries about partitionByKey -/

theorem partitionByKey_fst_lookup [DecidableEq κ] (keyOf : α → Option κ) (val : α → β)
    (l : List α) (key : κ) :
    lookupA (partitionByKey keyOf val l).1 key =
      bucketSpec none ((l.filter (fun a => decide (keyOf a = some key))).map val) :=
  partitionByKey_lookup keyOf val l ([], []) key

theorem partitionByKey_fst_getD [DecidableEq κ] (keyOf : α → Option κ) (val : α → β)
    (l : List α) (key : κ)
    (h : key ∈ (partitionByKey keyOf val l).1.map Prod.fst) :
    (lookupA (partitionByKey keyOf val l).1 key).getD [] =
      (l.filter (fun a => decide (keyOf a = some key))).map val := by
  have hs := (lookupA_isSome_iff (partitionByKey keyOf val l).1 key).mpr h
  rw [partitionByKey_fst_lookup] at hs ⊢
  unfold bucketSpec at hs ⊢
  by_cases hg : ((l.filter (fun a => decide (keyOf a = some key))).map val).isEmpty
  · rw [if_pos hg] at hs
    exact absurd hs (by simp)
  · rw [if_neg hg]
    rfl

theorem partitionByKey_mem_keys [DecidableEq κ] (keyOf : α → Option κ) (val : α → β)
    (l : List α) (a : α) (ha : a ∈ l) (k : κ) (hk : keyOf a = some k) :
    k ∈ (partitionByKey keyOf val l).1.map Prod.fst := by
  rw [← lookupA_isSome_iff, partitionByKey_fst_lookup]
  have hmem : a ∈ l.filter (fun x => decide (keyOf x = some k)) :=
    List.mem_filter.mpr ⟨ha, by simp [hk]⟩
  unfold bucketSpec
  have hne : ((l.filter (fun x => decide (keyOf x = some k))).map val).isEmpty = false := by
    cases hfe : l.filter (fun x => decide (keyOf x = some k)) with
    | nil => rw [hfe] at hmem; exact absurd hmem (by simp)
    | cons x t => simp [hfe]
  rw [if_neg (by simp [hne])]
  rfl

theorem partitionByKey_fst_nodup [DecidableEq κ] (keyOf : α → Option κ) (val : α → β)
    (l : List α) : ((partitionByKey keyOf val l).1.map Prod.fst).Nodup :=
  partitionByKey_keys_nodup keyOf val l ([], []) (by simp)

theorem partitionByKey_rest [DecidableEq κ] (keyOf : α → Option κ) (val : α → β)
    (l : List α) :
    (partitionByKey keyOf val l).2 = l.filter (fun a => (keyOf a).isNone) := by
  have := partitionByKey_snd keyOf val l ([], [])
  simpa using this

/-! ## C5 supporting lemmas -/

theorem mk_proj_tree (reg : List Nat) (tr : List LNode) (b : Bool) (pl : SAGPlugin) :
    (SAGState.mk (Project.mk reg tr b) pl).proj.tree = tr := rfl

theorem flattenList_append (l₁ l₂ : List LNode) :
    flattenList (l₁ ++ l₂) = flattenList l₁ ++ flattenList l₂ := by
  rw [flattenList_eq_flatMap, flattenList_eq_flatMap, flattenList_eq_flatMap,
    List.flatMap_append]

theorem folderValOf_snd (pathOf : Nat → FPath) (n : LNode) :
    (folderValOf pathOf n).2 = n := by
  cases n with
  | layer r v e => cases r <;> rfl
  | group nm v e mx cs => rfl

theorem sag_sort_with_groups_flatten_perm (le : LNode → LNode → Bool) (rev : Bool)
    (children : List LNode) :
    (flattenList (sag_sort_with_groups le rev children)).Perm (flattenList children) := by
  simp only [sag_sort_with_groups]
  rw [flattenList_eq_flatMap, List.flatMap_map]
  refine List.Perm.trans
    (List.Perm.flatMap_right _
      (pySorted_perm (fun a b : LNode × LNode => pyCmp le rev a.1 b.1) _)) ?_
  rw [List.flatMap_map]
  rw [flattenList_eq_flatMap children]
  refine List.Perm.flatMap_left children ?_
  intro c hc
  cases c with
  | layer r v e =>
    show (flattenNode (copy_node (LNode.layer r v e))).Perm (flattenNode (LNode.layer r v e))
    rw [copy_node_id]
  | group n v e mx cs =>
    show (flattenList (copy_node_list (pySorted (pyCmp le rev) cs))).Perm
      (flattenList cs)
    rw [copy_node_list_id]
    exact flattenList_perm _ _ (pySorted_perm _ cs)

theorem sag_reorder_flatten_perm (le : LNode → LNode → Bool) (rev : Bool) (s : SAGState) :
    (flattenList ((sag_reorder_layers le rev s).proj.tree)).Perm
      (flattenList s.proj.tree) := by
  by_cases he : s.proj.tree.isEmpty
  · simp only [sag_reorder_layers, if_pos he]
    exact List.Perm.refl _
  · simp only [sag_reorder_layers]
    rw [if_neg he, sag_rebuild_tree_eq, mk_proj_tree, sag_save_proj]
    by_cases hg : s.proj.tree.any LNode.isGroup
    · rw [if_pos hg]
      exact sag_sort_with_groups_flatten_perm le rev s.proj.tree
    · rw [if_neg hg, copy_node_list_id]
      exact flattenList_perm _ _ (pySorted_perm _ _)

theorem sag_group_by_geometry_flatten_perm (kind : Nat → LayerKind) (s : SAGState) :
    (flattenList ((sag_group_by_geometry kind s).proj.tree)).Perm
      (flattenList s.proj.tree) := by
  by_cases he : (flattenList s.proj.tree).isEmpty
  · simp only [sag_group_by_geometry, if_pos he]
    exact List.Perm.refl _
  · simp only [sag_group_by_geometry]
    rw [if_neg he, sag_rebuild_tree_eq, mk_proj_tree]
    set all := flattenList s.proj.tree with hall
    set keyOf : LNode → Option (Nat × Str) := fun n => some (geomCategoryKey kind n)
      with hkeyOf
    set cats := (partitionByKey keyOf id all).1 with hcats
    set sortedKeys := pySorted catKeyLe (cats.map Prod.fst) with hsorted
    have hmem : ∀ k ∈ sortedKeys, k ∈ cats.map Prod.fst := by
      intro k hk
      exact (pySorted_perm catKeyLe (cats.map Prod.fst)).mem_iff.mp hk
    have hbuckets : ∀ k ∈ sortedKeys,
        flattenNode (LNode.group k.2 true true false
          (copy_node_list ((lookupA cats k).getD []))) =
        all.filter (fun a => decide (keyOf a = some k)) := by
      intro k hk
      show flattenList (copy_node_list ((lookupA cats k).getD [])) = _
      rw [copy_node_list_id, hcats,
        partitionByKey_fst_getD keyOf id all k (hcats ▸ hmem k hk), List.map_id]
      refine flattenList_of_layers _ ?_
      intro n hn
      have hna : n ∈ all := (List.mem_filter.mp hn).1
      rw [hall] at hna
      exact flattenList_layers s.proj.tree n hna
    rw [flattenList_eq_flatMap, List.flatMap_map, List.flatMap_congr hbuckets]
    have hnodup : sortedKeys.Nodup := by
      refine (pySorted_perm catKeyLe (cats.map Prod.fst)).symm.nodup ?_
      rw [hcats]
      exact partitionByKey_fst_nodup keyOf id all
    have hcov : ∀ a ∈ all, ∀ k, keyOf a = some k → k ∈ sortedKeys := by
      intro a ha k hk
      refine (pySorted_perm catKeyLe (cats.map Prod.fst)).mem_iff.mpr ?_
      rw [hcats]
      exact partitionByKey_mem_keys keyOf id all a ha k hk
    have hmain := perm_partition keyOf sortedKeys hnodup all hcov
    have hnone : all.filter (fun a => (keyOf a).isNone) = [] := by
      refine List.filter_eq_nil_iff.mpr ?_
      intro a _
      simp [hkeyOf]
    rw [hnone, List.append_nil] at hmain
    exact hmain

theorem sag_group_by_folder_flatten_perm (pathOf : Nat → FPath) (s : SAGState) :
    (flattenList ((sag_group_by_folder pathOf s).proj.tree)).Perm
      (flattenList s.proj.tree) := by
  by_cases he : (flattenList s.proj.tree).isEmpty
  · simp only [sag_group_by_folder, if_pos he]
    exact List.Perm.refl _
  · simp only [sag_group_by_folder]
    rw [if_neg he, sag_rebuild_tree_eq, mk_proj_tree]
    set all := flattenList s.proj.tree with hall
    set keyOf := folderKeyOf pathOf with hkeyOf
    set val := folderValOf pathOf with hval
    set folders := (partitionByKey keyOf val all).1 with hfolders
    set other := (partitionByKey keyOf val all).2 with hother
    set dn := unique_folder_names (folders.map Prod.fst) with hdn
    set sortedFolders := pySorted
      (fun f1 f2 => strLeB (pyLower ((lookupA dn f1).getD []))
        (pyLower ((lookupA dn f2).getD []))) (folders.map Prod.fst) with hsf
    have hsf_mem : ∀ fp ∈ sortedFolders, fp ∈ folders.map Prod.fst := by
      intro fp hfp
      exact (pySorted_perm _ (folders.map Prod.fst)).mem_iff.mp hfp
    have hall_layers : ∀ n ∈ all, n.isGroup = false := by
      intro n hn
      rw [hall] at hn
      exact flattenList_layers s.proj.tree n hn
    have hfg : ∀ fp ∈ sortedFolders,
        (flattenNode (LNode.group ((lookupA dn fp).getD []) true true false
          ((pySorted pairFstLe ((lookupA folders fp).getD [])).map
            (fun pr => copy_node pr.2)))).Perm
        (all.filter (fun a => decide (keyOf a = some fp))) := by
      intro fp hfp
      show (flattenList ((pySorted pairFstLe ((lookupA folders fp).getD [])).map
        (fun pr => copy_node pr.2))).Perm _
      have hb : (lookupA folders fp).getD [] =
          (all.filter (fun a => decide (keyOf a = some fp))).map val := by
        rw [hfolders]
        exact partitionByKey_fst_getD keyOf val all fp (hfolders ▸ hsf_mem fp hfp)
      rw [List.map_congr_left
        (fun (pr : Str × LNode) _ => copy_node_id pr.2)]
      have hlayers : ∀ n ∈ (pySorted pairFstLe ((lookupA folders fp).getD [])).map
          (fun pr => pr.2), n.isGroup = false := by
        intro n hn
        rcases List.mem_map.mp hn with ⟨pr, hpr, hpreq⟩
        have hpr' : pr ∈ (lookupA folders fp).getD [] :=
          (pySorted_perm pairFstLe _).mem_iff.mp hpr
        rw [hb] at hpr'
        rcases List.mem_map.mp hpr' with ⟨a, haf, haeq⟩
        have hasnd : pr.2 = a := by
          rw [← haeq, hval, folderValOf_snd]
        rw [← hpreq, hasnd]
        exact hall_layers a (List.mem_filter.mp haf).1
      rw [flattenList_of_layers _ hlayers]
      refine List.Perm.trans (List.Perm.map _ (pySorted_perm pairFstLe _)) ?_
      rw [hb, List.map_map]
      rw [List.map_congr_left
        (fun a _ => by
          show (val a).2 = id a
          rw [hval, folderValOf_snd, id])]
      rw [List.map_id]
    have hnodup : sortedFolders.Nodup := by
      refine (pySorted_perm _ (folders.map Prod.fst)).symm.nodup ?_
      rw [hfolders]
      exact partitionByKey_fst_nodup keyOf val all
    have hcov : ∀ a ∈ all, ∀ k, keyOf a = some k → k ∈ sortedFolders := by
      intro a ha k hk
      refine (pySorted_perm _ (folders.map Prod.fst)).mem_iff.mpr ?_
      rw [hfolders]
      exact partitionByKey_mem_keys keyOf val all a ha k hk
    have hmain := perm_partition keyOf sortedFolders hnodup all hcov
    have hrest : all.filter (fun a => (keyOf a).isNone) = other := by
      rw [hother]
      exact (partitionByKey_rest keyOf val all).symm
    rw [hrest] at hmain
    by_cases hoe : other.isEmpty
    · rw [if_pos hoe]
      have hoeq : other = [] := List.isEmpty_iff.mp hoe
      rw [flattenList_eq_flatMap, List.flatMap_map]
      refine List.Perm.trans (List.Perm.flatMap_left sortedFolders hfg) ?_
      rw [hoeq, List.append_nil] at hmain
      exact hmain
    · rw [if_neg hoe]
      rw [flattenList_append, flattenList_eq_flatMap, List.flatMap_map]
      have hog : flattenList [LNode.group "Other Sources".data true true false
          (copy_node_list other)] = other := by
        show flattenNode (LNode.group "Other Sources".data true true false
          (copy_node_list other)) ++ flattenList [] = other
        show flattenList (copy_node_list other) ++ [] = other
        rw [List.append_nil, copy_node_list_id]
        refine flattenList_of_layers other ?_
        intro n hn
        have : n ∈ all.filter (fun a => (keyOf a).isNone) := by rw [hrest]; exact hn
        exact hall_layers n (List.mem_filter.mp this).1
      rw [hog]
      refine List.Perm.trans
        (List.Perm.append (List.Perm.flatMap_left sortedFolders hfg)
          (List.Perm.refl other)) ?_
      exact hmain

/-- C5: every sort operation (with or without groups), group_by_geometry,
and group_by_folder produces a tree whose flattened sequence of layer
nodes is a permutation of the flattened sequence before the operation —
no layer node is dropped or duplicated, and each kept node references
the same layer (node equality includes the layer reference). -/
theorem layer_multiset_preservation :
    ∀ (op : SAGOp) (s : SAGState),
      (flattenList ((applySAGOp op s).proj.tree)).Perm (flattenList s.proj.tree) := by
  intro op s
  cases op with
  | sortOp le rev => exact sag_reorder_flatten_perm le rev s
  | groupGeom kind => exact sag_group_by_geometry_flatten_perm kind s
  | groupFolder pathOf => exact sag_group_by_folder_flatten_perm pathOf s

/-! ## C9: well-formed paths and string lemmas -/

/-- Well-formedness of a modelled normalised path: at least one
component, every component non-empty and free of path separators
(exactly the shape `os.path.normpath` produces for a non-root path). -/
def FPath.WF (p : FPath) : Prop :=
  p.comps ≠ [] ∧ ∀ c ∈ p.comps, c ≠ [] ∧ '/' ∉ c

/-- The characters of a string after its last slash. -/
def afterLastSlash (s : Str) : Str :=
  s.foldl (fun acc c => if c = '/' then [] else acc ++ [c]) []

theorem foldl_slash_no_slash (s : Str) :
    ∀ acc, (∀ c ∈ s, c ≠ '/') →
      s.foldl (fun acc c => if c = '/' then [] else acc ++ [c]) acc = acc ++ s := by
  induction s with
  | nil => intro acc _; simp
  | cons c t ih =>
    intro acc h
    have hc : c ≠ '/' := h c (by simp)
    rw [List.foldl_cons, if_neg hc, ih (acc ++ [c]) (fun x hx => h x (by simp [hx]))]
    simp

theorem afterLastSlash_no_slash (s : Str) (h : '/' ∉ s) : afterLastSlash s = s := by
  unfold afterLastSlash
  rw [foldl_slash_no_slash s [] (fun c hc heq => h (heq ▸ hc))]
  simp

theorem afterLastSlash_append_slash (a b : Str) :
    afterLastSlash (a ++ '/' :: b) = afterLastSlash b := by
  unfold afterLastSlash
  rw [List.foldl_append, List.foldl_cons, if_pos rfl]

theorem intercalate_single (c : Str) : List.intercalate ['/'] [c] = c := by
  simp [List.intercalate, List.intersperse]

theorem intercalate_cons₂ (c y : Str) (t : List Str) :
    List.intercalate ['/'] (c :: y :: t) = c ++ '/' :: List.intercalate ['/'] (y :: t) := by
  simp [List.intercalate, List.intersperse]

theorem afterLastSlash_intercalate :
    ∀ (cs : List Str), cs ≠ [] → (∀ c ∈ cs, '/' ∉ c) →
      afterLastSlash (List.intercalate ['/'] cs) = (cs.getLast?).getD [] := by
  intro cs
  induction cs with
  | nil => intro h _; exact absurd rfl h
  | cons c t ih =>
    intro _ hsf
    cases t with
    | nil =>
      rw [intercalate_single]
      rw [afterLastSlash_no_slash c (hsf c (by simp))]
      rfl
    | cons y ys =>
      rw [intercalate_cons₂, afterLastSlash_append_slash,
        ih (by simp) (fun x hx => hsf x (List.mem_cons_of_mem _ hx)),
        List.getLast?_cons_cons]

/-- Basename of a well-formed path: its last component. -/
theorem fBasename_wf (p : FPath) (h : p.WF) :
    ∃ c, p.comps.getLast? = some c ∧ fBasename p = c ∧ c ≠ [] ∧ '/' ∉ c := by
  obtain ⟨hne, hcomps⟩ := h
  cases hl : p.comps.getLast? with
  | none =>
    rw [List.getLast?_eq_none_iff] at hl
    exact absurd hl hne
  | some c =>
    have hc := hcomps c (List.mem_of_mem_getLast? hl)
    exact ⟨c, rfl, by simp [fBasename, hl], hc.1, hc.2⟩

theorem baseKeyOf_wf (p : FPath) (h : p.WF) : baseKeyOf p = fBasename p := by
  obtain ⟨c, _, hbc, hcne, _⟩ := fBasename_wf p h
  unfold baseKeyOf
  rw [if_neg (by rw [hbc]; exact hcne)]

theorem afterLastSlash_render (p : FPath) (h : p.WF) :
    afterLastSlash p.render = fBasename p := by
  obtain ⟨c, hl, hbc, _, _⟩ := fBasename_wf p h
  have hsf : ∀ x ∈ p.comps, '/' ∉ x := fun x hx => (h.2 x hx).2
  unfold FPath.render
  by_cases ha : p.absFlag
  · rw [if_pos ha]
    have : afterLastSlash ('/' :: List.intercalate ['/'] p.comps) =
        afterLastSlash (List.intercalate ['/'] p.comps) := by
      have := afterLastSlash_append_slash [] (List.intercalate ['/'] p.comps)
      simpa using this
    rw [this, afterLastSlash_intercalate p.comps h.1 hsf, hl, hbc]
    rfl
  · rw [if_neg ha, afterLastSlash_intercalate p.comps h.1 hsf, hl, hbc]
    rfl

theorem osJoin_slashfree (a b : Str) (hane : a ≠ []) (hasf : '/' ∉ a)
    (hbne : b ≠ []) (hbsf : '/' ∉ b) : osJoin a b = a ++ '/' :: b := by
  unfold osJoin
  rw [if_neg hane]
  have hbh : b.head? ≠ some '/' := by
    cases b with
    | nil => simp
    | cons x t =>
      intro hx
      have hx' : x = '/' := by simpa using hx
      exact hbsf (by simp [hx'])
  have hal : a.getLast? ≠ some '/' := by
    intro hx
    exact hasf (List.mem_of_mem_getLast? hx)
  rw [if_neg hbh, if_neg hal]

theorem slashfree_prefix_eq :
    ∀ (c : Str), (∀ ch ∈ c, ch ≠ '/') → ∀ (d X Y : Str), (∀ ch ∈ d, ch ≠ '/') →
      c ++ '/' :: X = d ++ '/' :: Y → c = d ∧ X = Y := by
  intro c
  induction c with
  | nil =>
    intro _ d X Y hd h
    cases d with
    | nil =>
      refine ⟨rfl, ?_⟩
      simpa using h
    | cons dc dt =>
      exfalso
      simp only [List.nil_append, List.cons_append, List.cons.injEq] at h
      exact hd dc (by simp) h.1.symm
  | cons cc ct ih =>
    intro hc d X Y hd h
    cases d with
    | nil =>
      exfalso
      simp only [List.cons_append, List.nil_append, List.cons.injEq] at h
      exact hc cc (by simp) h.1
    | cons dc dt =>
      simp only [List.cons_append, List.cons.injEq] at h
      obtain ⟨hcd, hrest⟩ := h
      have := ih (fun ch hch => hc ch (List.mem_cons_of_mem _ hch)) dt X Y
        (fun ch hch => hd ch (List.mem_cons_of_mem _ hch)) hrest
      exact ⟨by rw [hcd, this.1], this.2⟩

theorem intercalate_inj :
    ∀ (cs : List Str), cs ≠ [] → (∀ c ∈ cs, c ≠ [] ∧ '/' ∉ c) →
      ∀ (ds : List Str), ds ≠ [] → (∀ c ∈ ds, c ≠ [] ∧ '/' ∉ c) →
      List.intercalate ['/'] cs = List.intercalate ['/'] ds → cs = ds := by
  intro cs
  induction cs with
  | nil => intro h; exact absurd rfl h
  | cons c t ih =>
    intro _ hcs ds hdsne hds h
    cases ds with
    | nil => exact absurd rfl hdsne
    | cons d dt =>
      cases t with
      | nil =>
        cases dt with
        | nil =>
          rw [intercalate_single, intercalate_single] at h
          rw [h]
        | cons d2 dt2 =>
          exfalso
          rw [intercalate_single, intercalate_cons₂] at h
          have hmem : '/' ∈ c := by
            rw [h]
            exact List.mem_append.mpr (Or.inr (by simp))
          exact (hcs c (by simp)).2 hmem
      | cons c2 ct =>
        cases dt with
        | nil =>
          exfalso
          rw [intercalate_cons₂, intercalate_single] at h
          have hmem : '/' ∈ d := by
            rw [← h]
            exact List.mem_append.mpr (Or.inr (by simp))
          exact (hds d (by simp)).2 hmem
        | cons d2 dt2 =>
          rw [intercalate_cons₂, intercalate_cons₂] at h
          have hcsf : ∀ ch ∈ c, ch ≠ '/' :=
            fun ch hch heq => (hcs c (by simp)).2 (heq ▸ hch)
          have hdsf : ∀ ch ∈ d, ch ≠ '/' :=
            fun ch hch heq => (hds d (by simp)).2 (heq ▸ hch)
          obtain ⟨hcd, hrest⟩ := slashfree_prefix_eq c hcsf d _ _ hdsf h
          have := ih (by simp) (fun x hx => hcs x (List.mem_cons_of_mem _ hx))
            (d2 :: dt2) (by simp) (fun x hx => hds x (List.mem_cons_of_mem _ hx)) hrest
          rw [hcd, this]

theorem intercalate_head (d : Str) (dt : List Str) (hd : d ≠ []) :
    (List.intercalate ['/'] (d :: dt)).head? = d.head? := by
  cases dt with
  | nil => rw [intercalate_single]
  | cons y ys =>
    rw [intercalate_cons₂]
    cases d with
    | nil => exact absurd rfl hd
    | cons dc dt' => rfl

theorem intercalate_head_ne_slash (cs : List Str) (hne : cs ≠ [])
    (hwf : ∀ c ∈ cs, c ≠ [] ∧ '/' ∉ c) :
    (List.intercalate ['/'] cs).head? ≠ some '/' := by
  cases cs with
  | nil => exact absurd rfl hne
  | cons d dt =>
    rw [intercalate_head d dt (hwf d (by simp)).1]
    cases d with
    | nil => exact absurd rfl (hwf [] (by simp)).1
    | cons dc dt' =>
      intro heq
      have hdc : dc = '/' := by simpa using heq
      exact (hwf (dc :: dt') (by simp)).2 (by simp [hdc])

theorem render_inj (p q : FPath) (hp : p.WF) (hq : q.WF)
    (h : p.render = q.render) : p = q := by
  obtain ⟨pa, pc⟩ := p
  obtain ⟨qa, qc⟩ := q
  obtain ⟨hpne, hpwf⟩ := hp
  obtain ⟨hqne, hqwf⟩ := hq
  simp only [FPath.render] at h
  cases pa <;> cases qa <;> simp only [Bool.false_eq_true, if_false, if_true] at h
  · have heq := intercalate_inj pc hpne hpwf qc hqne hqwf h
    rw [heq]
  · exact absurd (by rw [h]; rfl : (List.intercalate ['/'] pc).head? = some '/')
      (intercalate_head_ne_slash pc hpne hpwf)
  · exact absurd (by rw [← h]; rfl : (List.intercalate ['/'] qc).head? = some '/')
      (intercalate_head_ne_slash qc hqne hqwf)
  · have h2 : List.intercalate ['/'] pc = List.intercalate ['/'] qc := by
      simpa using h
    have heq := intercalate_inj pc hpne hpwf qc hqne hqwf h2
    rw [heq]

theorem render_two (q : FPath) (hq : q.WF) (parent B : Str)
    (hpne : parent ≠ []) (hpsf : '/' ∉ parent) (hBne : B ≠ []) (hBsf : '/' ∉ B)
    (h : q.render = parent ++ '/' :: B) : q = ⟨false, [parent, B]⟩ := by
  have hI : List.intercalate ['/'] [parent, B] = parent ++ '/' :: B := by
    rw [intercalate_cons₂, intercalate_single]
  have hwf2 : ∀ c ∈ [parent, B], c ≠ [] ∧ '/' ∉ c := by
    intro c hc
    rcases List.mem_cons.mp hc with hc | hc
    · subst hc; exact ⟨hpne, hpsf⟩
    · have : c = B := by simpa using hc
      subst this; exact ⟨hBne, hBsf⟩
  obtain ⟨qa, qc⟩ := q
  obtain ⟨hqne, hqwf⟩ := hq
  simp only [FPath.render] at h
  cases qa <;> simp only [Bool.false_eq_true, if_false, if_true] at h
  · have heq := intercalate_inj qc hqne hqwf [parent, B] (by simp) hwf2
      (h.trans hI.symm)
    rw [heq]
  · exfalso
    cases parent with
    | nil => exact hpne rfl
    | cons pc pt =>
      have hh : some '/' = some pc := by
        have := congrArg List.head? h
        simpa using this
      have : pc = '/' := by simpa using hh.symm
      exact hpsf (by simp [this])

theorem afterLastSlash_base (p : FPath) (hp : p.WF) :
    afterLastSlash (fBasename p) = fBasename p := by
  obtain ⟨c, _, hbc, _, hcsf⟩ := fBasename_wf p hp
  rw [hbc]
  exact afterLastSlash_no_slash c hcsf

theorem parent_mem_comps (p : FPath) (hpar : fBasename (fDirname p) ≠ []) :
    fBasename (fDirname p) ∈ p.comps := by
  unfold fBasename fDirname at hpar ⊢
  cases hl : p.comps.dropLast.getLast? with
  | none =>
    exfalso
    apply hpar
    rw [hl]
    rfl
  | some c =>
    have hmem : c ∈ p.comps.dropLast := List.mem_of_mem_getLast? hl
    have := List.dropLast_subset p.comps hmem
    simpa [hl] using this

theorem afterLastSlash_combo (p : FPath) (hp : p.WF) :
    afterLastSlash (comboOf (baseKeyOf p) p) = fBasename p := by
  unfold comboOf
  by_cases hpar : fBasename (fDirname p) = []
  · rw [if_pos hpar]
    exact afterLastSlash_render p hp
  · rw [if_neg hpar]
    have hpmem := parent_mem_comps p hpar
    have hp2 := hp.2 _ hpmem
    obtain ⟨c, _, hbc, hcne, hcsf⟩ := fBasename_wf p hp
    rw [baseKeyOf_wf p hp,
      osJoin_slashfree _ _ hpar hp2.2 (by rw [hbc]; exact hcne) (by rw [hbc]; exact hcsf),
      afterLastSlash_append_slash, hbc]
    exact afterLastSlash_no_slash c hcsf

theorem combo_eq_join (p : FPath) (hp : p.WF) (hpar : fBasename (fDirname p) ≠ []) :
    comboOf (baseKeyOf p) p = fBasename (fDirname p) ++ '/' :: fBasename p := by
  unfold comboOf
  rw [if_neg hpar]
  have hpmem := parent_mem_comps p hpar
  have hp2 := hp.2 _ hpmem
  obtain ⟨c, _, hbc, hcne, hcsf⟩ := fBasename_wf p hp
  rw [baseKeyOf_wf p hp,
    osJoin_slashfree _ _ hpar hp2.2 (by rw [hbc]; exact hcne) (by rw [hbc]; exact hcsf)]

theorem partitionByKey_mem_elim [DecidableEq κ] (keyOf : α → Option κ) (val : α → β)
    (l : List α) (k : κ) (g : List β)
    (h : (k, g) ∈ (partitionByKey keyOf val l).1) :
    g = (l.filter (fun a => decide (keyOf a = some k))).map val ∧ g ≠ [] := by
  have hl := mem_lookupA_of_nodupKeys _ (partitionByKey_fst_nodup keyOf val l) k g h
  rw [partitionByKey_fst_lookup] at hl
  simp only [bucketSpec] at hl
  by_cases hg : ((l.filter (fun a => decide (keyOf a = some k))).map val).isEmpty
  · rw [if_pos hg] at hl
    exact absurd hl (by simp)
  · rw [if_neg hg] at hl
    have hFM := Option.some.inj hl
    refine ⟨hFM.symm, ?_⟩
    rw [← hFM]
    exact List.isEmpty_eq_false.mp (by simpa using hg)

theorem partitionByKey_bucket_mem [DecidableEq κ] (keyOf : α → Option κ) (val : α → β)
    (l : List α) (a : α) (ha : a ∈ l) (k : κ) (hk : keyOf a = some k) :
    (k, (l.filter (fun x => decide (keyOf x = some k))).map val) ∈
      (partitionByKey keyOf val l).1 := by
  apply lookupA_mem
  rw [partitionByKey_fst_lookup]
  simp only [bucketSpec]
  have hmem : a ∈ l.filter (fun x => decide (keyOf x = some k)) :=
    List.mem_filter.mpr ⟨ha, by simp [hk]⟩
  rw [if_neg ?_]
  intro hie
  rw [List.isEmpty_iff, List.map_eq_nil_iff] at hie
  rw [hie] at hmem
  exact absurd hmem (by simp)

theorem assign_total (B : Str) (g : List FPath) (p : FPath) (hp : p ∈ g) :
    ∃ nm, (p, nm) ∈ assignNamesForGroup B g := by
  rcases g with _ | ⟨x, _ | ⟨y, ys⟩⟩
  · exact absurd hp (by simp)
  · have hpx : p = x := by simpa using hp
    subst hpx
    exact ⟨B, by simp [assignNamesForGroup]⟩
  · show ∃ nm, (p, nm) ∈
      ((partitionByKey (fun fp => some (comboOf B fp)) id (x :: y :: ys)).1).flatMap
        (fun cg => match cg.2 with
          | [q] => [(q, cg.1)]
          | sub => sub.map (fun fp => (fp, FPath.render fp)))
    have hbm := partitionByKey_bucket_mem (fun fp => some (comboOf B fp)) id
      (x :: y :: ys) p hp (comboOf B p) rfl
    set sub := ((x :: y :: ys).filter
      (fun fp => decide (some (comboOf B fp) = some (comboOf B p)))).map id with hsub
    have hpsub : p ∈ sub := by
      rw [hsub, List.map_id]
      exact List.mem_filter.mpr ⟨hp, by simp⟩
    rcases hs : sub with _ | ⟨z, _ | ⟨w, ws⟩⟩
    · rw [hs] at hpsub
      exact absurd hpsub (by simp)
    · rw [hs] at hpsub hbm
      have hpz : p = z := by simpa using hpsub
      subst hpz
      exact ⟨comboOf B p, List.mem_flatMap.mpr ⟨(comboOf B p, [p]), hbm, by simp⟩⟩
    · rw [hs] at hpsub hbm
      refine ⟨p.render, List.mem_flatMap.mpr ⟨(comboOf B p, z :: w :: ws), hbm, ?_⟩⟩
      show (p, p.render) ∈ (z :: w :: ws).map (fun fp => (fp, FPath.render fp))
      exact List.mem_map.mpr ⟨p, hpsub, rfl⟩

theorem assign_mem_elim (B : Str) (g : List FPath) (p : FPath) (nm : Str)
    (h : (p, nm) ∈ assignNamesForGroup B g) :
    p ∈ g ∧
      ((g = [p] ∧ nm = B) ∨
        ((∀ x, g ≠ [x]) ∧
          ((g.filter (fun a => decide (some (comboOf B a) = some (comboOf B p))) = [p] ∧
            nm = comboOf B p) ∨
           ((∀ x, g.filter
              (fun a => decide (some (comboOf B a) = some (comboOf B p))) ≠ [x]) ∧
            nm = p.render)))) := by
  rcases g with _ | ⟨x, _ | ⟨y, ys⟩⟩
  · exact absurd h (by simp [assignNamesForGroup, partitionByKey])
  · have hpx : (p, nm) = (x, B) := by simpa [assignNamesForGroup] using h
    have hp1 : p = x := congrArg Prod.fst hpx
    have hn1 : nm = B := congrArg Prod.snd hpx
    subst hp1
    exact ⟨by simp, Or.inl ⟨rfl, hn1⟩⟩
  · replace h : (p, nm) ∈
        ((partitionByKey (fun fp => some (comboOf B fp)) id (x :: y :: ys)).1).flatMap
          (fun cg => match cg.2 with
            | [q] => [(q, cg.1)]
            | sub => sub.map (fun fp => (fp, FPath.render fp))) := h
    rcases List.mem_flatMap.mp h with ⟨cg, hcg, hin⟩
    obtain ⟨c, sub⟩ := cg
    have helim := partitionByKey_mem_elim _ id (x :: y :: ys) c sub hcg
    have hsub : sub = (x :: y :: ys).filter
        (fun a => decide (some (comboOf B a) = some c)) := by
      rw [helim.1, List.map_id]
    have hglen : ∀ t, (x :: y :: ys : List FPath) ≠ [t] := by intro t hteq; simp at hteq
    rcases hs : sub with _ | ⟨z, _ | ⟨w, ws⟩⟩
    · rw [hs] at hin
      exact absurd hin (by simp)
    · rw [hs] at hin
      have hpz : (p, nm) = (z, c) := by simpa using hin
      have hp1 : p = z := congrArg Prod.fst hpz
      have hn1 : nm = c := congrArg Prod.snd hpz
      subst hp1
      have hpsub : p ∈ sub := by rw [hs]; simp
      have hpc : comboOf B p = c := by
        rw [hsub] at hpsub
        have := (List.mem_filter.mp hpsub).2
        simpa using this
      have hpg : p ∈ (x :: y :: ys : List FPath) := by
        rw [hsub] at hpsub
        exact (List.mem_filter.mp hpsub).1
      refine ⟨hpg, Or.inr ⟨hglen, Or.inl ⟨?_, by rw [hn1, hpc]⟩⟩⟩
      rw [← hpc] at hsub
      rw [← hsub, hs]
    · rw [hs] at hin
      rcases List.mem_map.mp hin with ⟨fp, hfp, hfpeq⟩
      have hp1 : fp = p := congrArg Prod.fst hfpeq
      have hn1 : nm = fp.render := (congrArg Prod.snd hfpeq).symm
      rw [hp1] at hfp hn1
      have hpsub : p ∈ sub := by rw [hs]; exact hfp
      have hpc : comboOf B p = c := by
        rw [hsub] at hpsub
        have := (List.mem_filter.mp hpsub).2
        simpa using this
      have hpg : p ∈ (x :: y :: ys : List FPath) := by
        rw [hsub] at hpsub
        exact (List.mem_filter.mp hpsub).1
      refine ⟨hpg, Or.inr ⟨hglen, Or.inr ⟨?_, hn1⟩⟩⟩
      intro t hteq
      rw [← hpc] at hsub
      rw [← hsub, hs] at hteq
      simp at hteq

theorem combo_single_ne_render (B : Str) (g : List FPath) (hgwf : ∀ x ∈ g, x.WF)
    (p q : FPath) (hpg : p ∈ g) (hqg : q ∈ g) (hpq : p ≠ q)
    (hB : B = baseKeyOf p)
    (hsubp : g.filter (fun a => decide (some (comboOf B a) = some (comboOf B p))) = [p])
    (hsubq : ∀ x, g.filter
      (fun a => decide (some (comboOf B a) = some (comboOf B q))) ≠ [x]) :
    comboOf B p ≠ q.render := by
  intro heq
  have hpwf := hgwf p hpg
  have hqwf := hgwf q hqg
  by_cases hpar : fBasename (fDirname p) = []
  · have hcp : comboOf B p = p.render := by
      unfold comboOf
      rw [if_pos hpar]
    rw [hcp] at heq
    exact hpq (render_inj p q hpwf hqwf heq)
  · have hcp : comboOf B p = fBasename (fDirname p) ++ '/' :: fBasename p := by
      rw [hB]
      exact combo_eq_join p hpwf hpar
    have hparent_mem := parent_mem_comps p hpar
    have hparwf := hpwf.2 _ hparent_mem
    obtain ⟨c, _, hbc, hcne, hcsf⟩ := fBasename_wf p hpwf
    have hbne : fBasename p ≠ [] := by rw [hbc]; exact hcne
    have hbsf : '/' ∉ fBasename p := by rw [hbc]; exact hcsf
    have hqrender : q.render = fBasename (fDirname p) ++ '/' :: fBasename p :=
      heq.symm.trans hcp
    have hq2 : q = ⟨false, [fBasename (fDirname p), fBasename p]⟩ :=
      render_two q hqwf _ _ hpar hparwf.2 hbne hbsf hqrender
    have hBbase : B = fBasename p := hB.trans (baseKeyOf_wf p hpwf)
    have hcq : comboOf B q = comboOf B p := by
      have hred : comboOf B (⟨false, [fBasename (fDirname p), fBasename p]⟩ : FPath) =
          if fBasename (fDirname p) = [] then
            FPath.render ⟨false, [fBasename (fDirname p), fBasename p]⟩
          else osJoin (fBasename (fDirname p)) B := rfl
      rw [hq2, hred, if_neg hpar,
        osJoin_slashfree _ _ hpar hparwf.2 (by rw [hBbase]; exact hbne)
          (by rw [hBbase]; exact hbsf),
        hcp, hBbase]
    have hqfil : q ∈ g.filter
        (fun a => decide (some (comboOf B a) = some (comboOf B q))) :=
      List.mem_filter.mpr ⟨hqg, by simp⟩
    have hfinal : g.filter
        (fun a => decide (some (comboOf B a) = some (comboOf B q))) = [p] := by
      simp only [hcq]
      exact hsubp
    exact hsubq p hfinal

theorem unique_total (paths : List FPath) (p : FPath) (hp : p ∈ paths) :
    ∃ nm, (p, nm) ∈ unique_folder_names paths := by
  unfold unique_folder_names
  rw [if_neg (fun hie => by
    rw [List.isEmpty_iff] at hie
    rw [hie] at hp
    exact absurd hp (by simp))]
  have hbm := partitionByKey_bucket_mem (fun fp => some (baseKeyOf fp)) id paths p hp
    (baseKeyOf p) rfl
  have hpa : p ∈ (paths.filter
      (fun x => decide (some (baseKeyOf x) = some (baseKeyOf p)))).map id := by
    rw [List.map_id]
    exact List.mem_filter.mpr ⟨hp, by simp⟩
  obtain ⟨nm, hnm⟩ := assign_total (baseKeyOf p) _ p hpa
  exact ⟨nm, List.mem_flatMap.mpr ⟨(baseKeyOf p,
    (paths.filter (fun x => decide (some (baseKeyOf x) = some (baseKeyOf p)))).map id),
    hbm, hnm⟩⟩

theorem unique_mem_elim (paths : List FPath) (p : FPath) (nm : Str)
    (h : (p, nm) ∈ unique_folder_names paths) :
    p ∈ paths ∧
      (p, nm) ∈ assignNamesForGroup (baseKeyOf p)
        (paths.filter (fun a => decide (some (baseKeyOf a) = some (baseKeyOf p)))) := by
  unfold unique_folder_names at h
  by_cases hpe : paths.isEmpty
  · rw [if_pos hpe] at h
    exact absurd h (by simp)
  · rw [if_neg hpe] at h
    rcases List.mem_flatMap.mp h with ⟨bg, hbg, hmem⟩
    obtain ⟨B, g⟩ := bg
    have helim := partitionByKey_mem_elim _ id paths B g hbg
    have hg : g = paths.filter (fun a => decide (some (baseKeyOf a) = some B)) := by
      rw [helim.1, List.map_id]
    have hpg : p ∈ g := (assign_mem_elim B g p nm hmem).1
    have hpB : baseKeyOf p = B := by
      rw [hg] at hpg
      have := (List.mem_filter.mp hpg).2
      simpa using this
    subst hpB
    constructor
    · rw [hg] at hpg
      exact (List.mem_filter.mp hpg).1
    · rw [← hg]
      exact hmem

theorem unique_entry_key (paths : List FPath) (hwf : ∀ x ∈ paths, x.WF)
    (p : FPath) (nm : Str) (h : (p, nm) ∈ unique_folder_names paths) :
    afterLastSlash nm = fBasename p := by
  obtain ⟨hpp, hmem⟩ := unique_mem_elim paths p nm h
  have hpwf := hwf p hpp
  obtain ⟨-, hshape⟩ := assign_mem_elim _ _ _ _ hmem
  rcases hshape with ⟨-, hnm⟩ | ⟨-, ⟨-, hnm⟩ | ⟨-, hnm⟩⟩
  · rw [hnm, baseKeyOf_wf p hpwf]
    exact afterLastSlash_base p hpwf
  · rw [hnm]
    exact afterLastSlash_combo p hpwf
  · rw [hnm]
    exact afterLastSlash_render p hpwf

/-- C9: for every list of folder paths (in normalised form) that are
pairwise distinct, `_unique_folder_names` assigns a display name to
every input path, and distinct input paths receive distinct display
names. -/
theorem unique_folder_names_spec :
    ∀ (paths : List FPath), (∀ x ∈ paths, x.WF) → paths.Nodup →
      (∀ p ∈ paths, ∃ nm, lookupA (unique_folder_names paths) p = some nm) ∧
      (∀ (p q : FPath) (np nq : Str),
        (p, np) ∈ unique_folder_names paths → (q, nq) ∈ unique_folder_names paths →
        p ≠ q → np ≠ nq) := by
  intro paths hwf hnd
  constructor
  · intro p hp
    obtain ⟨nm, hmem⟩ := unique_total paths p hp
    have hk : p ∈ (unique_folder_names paths).map Prod.fst :=
      List.mem_map.mpr ⟨(p, nm), hmem, rfl⟩
    exact Option.isSome_iff_exists.mp ((lookupA_isSome_iff _ p).mpr hk)
  · intro p q np nq hpm hqm hpq hnpq
    obtain ⟨hpp, hpassign⟩ := unique_mem_elim paths p np hpm
    obtain ⟨hqp, hqassign⟩ := unique_mem_elim paths q nq hqm
    have hpwf := hwf p hpp
    have hqwf := hwf q hqp
    have hkeyp := unique_entry_key paths hwf p np hpm
    have hkeyq := unique_entry_key paths hwf q nq hqm
    by_cases hbase : fBasename p = fBasename q
    case neg => exact hbase (by rw [← hkeyp, ← hkeyq, hnpq])
    case pos =>
      have hbk : baseKeyOf p = baseKeyOf q := by
        rw [baseKeyOf_wf p hpwf, baseKeyOf_wf q hqwf, hbase]
      simp only [← hbk] at hqassign
      set B := baseKeyOf p with hB
      set g := paths.filter (fun a => decide (some (baseKeyOf a) = some B)) with hgdef
      have hgwf : ∀ x ∈ g, x.WF := fun x hx => hwf x (List.mem_filter.mp hx).1
      have hpg : p ∈ g := (assign_mem_elim _ _ _ _ hpassign).1
      have hqg : q ∈ g := (assign_mem_elim _ _ _ _ hqassign).1
      obtain ⟨-, hshapep⟩ := assign_mem_elim _ _ _ _ hpassign
      obtain ⟨-, hshapeq⟩ := assign_mem_elim _ _ _ _ hqassign
      rcases hshapep with ⟨hgp, hnp⟩ | ⟨hglp, hinner_p⟩
      · rw [hgp] at hqg
        have hqp2 : q = p := by simpa using hqg
        exact hpq hqp2.symm
      · rcases hshapeq with ⟨hgq, hnq⟩ | ⟨hglq, hinner_q⟩
        · rw [hgq] at hpg
          exact hpq (by simpa using hpg)
        · rcases hinner_p with ⟨hsubp, hnp⟩ | ⟨hsubp, hnp⟩
          · rcases hinner_q with ⟨hsubq, hnq⟩ | ⟨hsubq, hnq⟩
            · have hc : comboOf B p = comboOf B q := by
                rw [← hnp, ← hnq, hnpq]
              have hfq : g.filter
                  (fun a => decide (some (comboOf B a) = some (comboOf B q))) = [p] := by
                simp only [← hc]
                exact hsubp
              have hqp' : (q : FPath) = p := by
                have := hsubq.symm.trans hfq
                simpa using this
              exact hpq hqp'.symm
            · exact (combo_single_ne_render B g hgwf p q hpg hqg hpq hB hsubp hsubq)
                (by rw [← hnp, ← hnq]; exact hnpq)
          · rcases hinner_q with ⟨hsubq, hnq⟩ | ⟨hsubq, hnq⟩
            · exact (combo_single_ne_render B g hgwf q p hqg hpg (Ne.symm hpq)
                (hB.trans hbk) hsubq hsubp)
                (by rw [← hnq, ← hnp]; exact hnpq.symm)
            · exact hpq (render_inj p q hpwf hqwf (by rw [← hnp, ← hnq]; exact hnpq))

instance (p : FPath) : Decidable p.WF := by
  unfold FPath.WF
  infer_instance

/-- Witness for C9 at two concrete sibling folders "a/b" and "c/b" whose
basenames collide: both get a name, and the names (the parent/basename
combos) differ. -/
theorem unique_folder_names_spec_witness :
    (∃ nm, lookupA (unique_folder_names
        [⟨false, [['a'], ['b']]⟩, ⟨false, [['c'], ['b']]⟩])
      (⟨false, [['a'], ['b']]⟩ : FPath) = some nm) ∧
    (['a', '/', 'b'] : Str) ≠ ['c', '/', 'b'] :=
  ⟨(unique_folder_names_spec [⟨false, [['a'], ['b']]⟩, ⟨false, [['c'], ['b']]⟩]
      (by decide) (by decide)).1 ⟨false, [['a'], ['b']]⟩ (by decide),
   (unique_folder_names_spec [⟨false, [['a'], ['b']]⟩, ⟨false, [['c'], ['b']]⟩]
      (by decide) (by decide)).2
    ⟨false, [['a'], ['b']]⟩ ⟨false, [['c'], ['b']]⟩ ['a', '/', 'b'] ['c', '/', 'b']
    (by decide) (by decide) (by decide)⟩
